import Mathlib

/-!
Verification development for the eTree directory-tree viewer.

The definitions below are a shallow embedding of the C++ sources
(`etree.cpp`, `etree.h`, `args.h`, `main.cpp`), following the Unix/Linux
(`#else`) build, which is the platform fork the traversal claims cite:

* the wildcard exclude matcher `matchesPattern` (etree.cpp, lines 420-433),
  including its glob-to-regex rewriting and the anchored case-insensitive
  regex match it delegates to, working byte by byte over the UTF-8
  contents of the `std::string` arguments, as `std::basic_regex<char>`
  does;
* the RTL console shaper `wrap_rtl` (etree.cpp, lines 172-225; the function
  itself lives in the Windows fork, but it is a pure string transformation
  and is embedded as such, one code point per list element);
* the recursive traversal `printTree` (etree.cpp, lines 737-850), over an
  abstract filesystem tree in which a failing child enumeration and a
  failing size query are represented by `none`;
* the surrounding driver behaviour of `main` (main.cpp): initial call,
  root label, summary line.

Machine integers: the C++ `int` fields (`level`, `maxLevel`, `maxDepth`)
are embedded as `Int`; they stay far away from overflow for any input a
run could meet, and no claim is about wrap-around.  Counters that are only
ever incremented (`folders`, `files`) are embedded as `Nat`.
-/

/-! ## The wildcard pattern matcher (etree.cpp, lines 420-433)

`matchesPattern` rewrites the wildcard pattern into an ECMAScript regex by
three global `std::regex_replace` passes — `.` becomes `\.`, then `?`
becomes `.`, then `*` becomes `.*` — and then runs an anchored
case-insensitive `std::regex_match`.

Both strings are `std::string`s, so the rewriting and the regex engine
work on the individual bytes of the UTF-8 encoding, not on code points: a
multi-byte character is several single-byte atoms to the regex.  The
embedding therefore works over `List Nat` byte sequences.  The engine is
embedded for the fragment of ECMAScript syntax that matters here:
single-byte atoms (a literal, possibly backslash-escaped, or `.`) and the
postfix quantifiers `*` and `+`.  The `.` atom — the one construct the
`?` and `*` rewrites produce — matches any byte except the single-byte
ECMAScript line terminators LF and CR (libstdc++'s ECMAScript any-matcher
over `char` checks exactly `c != '\n' && c != '\r'`), and `icase` folds
bytes through `std::tolower` in the "C" locale, i.e. ASCII-only.  Every
regex the rewriting produces from a pattern made of ordinary characters
plus `.`, `*`, `?` falls inside this fragment, and so does the pattern
`a+` used to separate the code from the specification.  (Patterns
containing further regex metacharacters such as `(` or `[` make the C++
`std::regex` constructor throw inside `printTree`'s try-block; no claim
depends on those.)
-/

/-- UTF-8 encoding of one code point, as a C++ `std::string` stores it:
one byte below U+0080, two below U+0800, three below U+10000, four
beyond. -/
def utf8Bytes (c : Char) : List Nat :=
  if c.toNat < 0x80 then [c.toNat]
  else if c.toNat < 0x800 then
    [0xC0 + c.toNat / 64, 0x80 + c.toNat % 64]
  else if c.toNat < 0x10000 then
    [0xE0 + c.toNat / 4096, 0x80 + (c.toNat / 64) % 64, 0x80 + c.toNat % 64]
  else
    [0xF0 + c.toNat / 262144, 0x80 + (c.toNat / 4096) % 64,
      0x80 + (c.toNat / 64) % 64, 0x80 + c.toNat % 64]

/-- The byte sequence of a string: the contents of the C++ `std::string`. -/
def strBytes (s : String) : List Nat :=
  (s.toList.map utf8Bytes).flatten

/-- `std::tolower` in the "C" locale, through which `icase` matching
translates every byte (`regex_traits<char>::translate_nocase`): ASCII
upper case folds to lower case, every other byte is unchanged. -/
def byteLower (b : Nat) : Nat := if 65 ≤ b ∧ b ≤ 90 then b + 32 else b

/-- Case-insensitive byte comparison, modelling how
`std::regex_constants::icase` compares one byte. -/
def eqCI (a b : Nat) : Bool := byteLower a = byteLower b

/-- First rewriting pass of `matchesPattern`:
`std::regex_replace(pattern, std::regex("\\."), "\\.")` — every `.`
(byte 46) becomes `\.` (bytes 92, 46). -/
def escDots : List Nat → List Nat
  | [] => []
  | b :: r => if b = 46 then 92 :: 46 :: escDots r else b :: escDots r

/-- Second rewriting pass: `std::regex_replace(regexPattern, std::regex("\\?"), ".")`
— every `?` (byte 63) becomes `.` (byte 46). -/
def qmToDot (l : List Nat) : List Nat :=
  l.map (fun b => if b = 63 then 46 else b)

/-- Third rewriting pass: `std::regex_replace(regexPattern, std::regex("\\*"), ".*")`
— every `*` (byte 42) becomes `.*` (bytes 46, 42). -/
def starExp : List Nat → List Nat
  | [] => []
  | b :: r => if b = 42 then 46 :: 42 :: starExp r else b :: starExp r

/-- A single-byte regex atom: a literal byte or `.`. -/
inductive RAtom where
  | lit (b : Nat)
  | dot
deriving Repr, DecidableEq

/-- A regex token: a bare atom, or an atom under a postfix `*` or `+` quantifier. -/
inductive RTok where
  | atom (a : RAtom)
  | star (a : RAtom)
  | plus (a : RAtom)
deriving Repr, DecidableEq

/-- Parse the rewritten pattern into regex tokens.  `\b` is the identity
escape (the rewriting only ever emits `\.`), `.` is the any-byte atom,
and a postfix `*` or `+` quantifies the preceding atom.  A `*` or `+` with
no preceding atom is kept as a literal. -/
def parseRx : List Nat → List RTok → List RTok
  | [], acc => acc.reverse
  | 92 :: b :: rest, acc => parseRx rest (.atom (.lit b) :: acc)
  | [92], acc => (RTok.atom (.lit 92) :: acc).reverse
  | 46 :: rest, acc => parseRx rest (.atom .dot :: acc)
  | 42 :: rest, .atom a :: acc => parseRx rest (.star a :: acc)
  | 43 :: rest, .atom a :: acc => parseRx rest (.plus a :: acc)
  | b :: rest, acc => parseRx rest (.atom (.lit b) :: acc)

/-- Does a single atom match a single byte (case-insensitively)?
ECMAScript `.` matches any character except a line terminator, which over
`char` means any byte other than LF (10) and CR (13). -/
def atomOk (a : RAtom) (x : Nat) : Bool :=
  match a with
  | .lit b => eqCI b x
  | .dot => !(x = 10 || x = 13)

/-- Fuelled anchored regex matcher over the token list.  Standard
backtracking semantics: `star a` either stops, or consumes one byte
matched by `a` and continues.  Every recursive call decreases
`tokens.length + s.length`, so any fuel above that bound gives the
fuel-free semantics. -/
def rmatchF : Nat → List RTok → List Nat → Bool
  | 0, _, _ => false
  | _ + 1, [], s => s.isEmpty
  | f + 1, .atom a :: ts, s =>
    match s with
    | [] => false
    | x :: xs => atomOk a x && rmatchF f ts xs
  | f + 1, .star a :: ts, s =>
    rmatchF f ts s ||
      match s with
      | [] => false
      | x :: xs => atomOk a x && rmatchF f (.star a :: ts) xs
  | f + 1, .plus a :: ts, s =>
    match s with
    | [] => false
    | x :: xs => atomOk a x && rmatchF f (.star a :: ts) xs

/-- Anchored regex match (fuel instantiated above the structural bound). -/
def rmatch (ts : List RTok) (s : List Nat) : Bool :=
  rmatchF (ts.length + s.length + 1) ts s

/-- `matchesPattern` (etree.cpp, lines 420-433): the empty pattern never
matches; otherwise rewrite the wildcard pattern to a regex and run the
anchored case-insensitive match over the UTF-8 byte sequences
(`std::regex_match` matches the whole string, which the additional
`^`/`$` of the source reiterate). -/
def matchesPattern (name pattern : String) : Bool :=
  if pattern = "" then false
  else rmatch (parseRx (starExp (qmToDot (escDots (strBytes pattern)))) []) (strBytes name)

/-- Fuelled form of the amended claim's glob matching over bytes.  Every
recursive call decreases `pattern.length + s.length`, so any fuel above
that bound gives the fuel-free semantics. -/
def globMatchSpecF : Nat → List Nat → List Nat → Bool
  | 0, _, _ => false
  | _ + 1, [], s => s.isEmpty
  | f + 1, 42 :: ps, s =>
    globMatchSpecF f ps s ||
      match s with
      | [] => false
      | x :: xs => !(x = 10 || x = 13) && globMatchSpecF f (42 :: ps) xs
  | f + 1, 63 :: ps, s =>
    match s with
    | [] => false
    | x :: xs => !(x = 10 || x = 13) && globMatchSpecF f ps xs
  | f + 1, b :: ps, s =>
    match s with
    | [] => false
    | x :: xs => eqCI b x && globMatchSpecF f ps xs

/-- Modelled from the amended claim's words (refining the spec's §4.1):
anchored case-insensitive glob matching over byte sequences, in which `*`
(byte 42) matches any run of non-line-terminator bytes (including the
empty run), `?` (byte 63) matches exactly one non-line-terminator byte,
and every other pattern byte is matched literally up to ASCII case.
Arguments: pattern, then name. -/
def globMatchSpec (p s : List Nat) : Bool :=
  globMatchSpecF (p.length + s.length + 1) p s

/-- The full comparison contract of the pattern matcher: empty pattern
never matches, otherwise the anchored case-insensitive byte-level glob
over the UTF-8 encodings. -/
def matchesSpec (name pattern : String) : Bool :=
  pattern ≠ "" && globMatchSpec (strBytes pattern) (strBytes name)

/-- A pattern byte with no regex meaning of its own after the rewriting:
anything except the bytes of `\`, `+`, `(`, `)`, `[`, `]`, `{`, `}`,
`|`, `^`, `$`.  (`.`, `*`, `?` are allowed: the rewriting handles them.) -/
def plainPatByte (b : Nat) : Bool :=
  !(b = 92 || b = 43 || b = 40 || b = 41 || b = 91 || b = 93 ||
    b = 123 || b = 125 || b = 124 || b = 94 || b = 36)

/-- A pattern character is plain when its code point is a plain byte.
The troublesome bytes are all ASCII, so a multi-byte character is plain
outright — each of its UTF-8 bytes is `0x80` or above
(`utf8Bytes_plain`).  On patterns made of plain characters
`matchesPattern` realises exactly the byte-level glob semantics. -/
def plainPatChar (c : Char) : Bool := plainPatByte c.toNat

/-! ## The RTL console shaper (etree.cpp, lines 135-138 and 172-225)

`wrap_rtl` scans the string once, buffering RTL characters and spaces; at
each run boundary (a character that is neither RTL nor a space) and at the
end of the string it flushes the buffer — reversed, with its trailing
spaces kept at the end, when the buffer saw an RTL character; verbatim
otherwise.  The embedding works one code point per list element. -/

/-- `is_arabic` (etree.cpp, lines 135-138): is the code point in one of the
RTL ranges 0x0590-0x08FF, 0xFB50-0xFDFF, 0xFE70-0xFEFF? -/
def is_arabic (c : Char) : Bool :=
  (0x0590 ≤ c.toNat && c.toNat ≤ 0x08FF) ||
  (0xFB50 ≤ c.toNat && c.toNat ≤ 0xFDFF) ||
  (0xFE70 ≤ c.toNat && c.toNat ≤ 0xFEFF)

/-- The flush of an RTL-marked buffer (etree.cpp, lines 189-197 and
211-219): pop the trailing spaces off the buffer, reverse the rest, then
re-append the popped spaces.  `buf.reverse.dropWhile` is the buffer minus
its trailing spaces, already reversed; `buf.reverse.takeWhile` is the run
of popped spaces. -/
def wrapFlush (buf : List Char) : List Char :=
  buf.reverse.dropWhile (fun c => c = ' ') ++ buf.reverse.takeWhile (fun c => c = ' ')

/-- The loop of `wrap_rtl` (etree.cpp, lines 178-222), with the buffer and
its has-RTL flag as explicit state: an RTL character or a space is
buffered, any other character flushes the buffer (reversing it when
RTL-marked) and is appended itself; the trailing buffer is flushed the
same way at the end of the string. -/
def wrapGo : List Char → List Char → Bool → List Char
  | [], buf, hasRtl => if hasRtl then wrapFlush buf else buf
  | c :: rest, buf, hasRtl =>
    if is_arabic c then wrapGo rest (buf ++ [c]) true
    else if c = ' ' then wrapGo rest (buf ++ [c]) hasRtl
    else (if hasRtl then wrapFlush buf else buf) ++ c :: wrapGo rest [] false

/-- `wrap_rtl` (etree.cpp, lines 172-225). -/
def wrap_rtl (s : List Char) : List Char := wrapGo s [] false

/-- Reference form of the shaper used in the involution proof: reverse
every maximal run of RTL characters, keep everything else in place.  The
accumulator holds the current RTL run already reversed.  On space-free
strings `wrap_rtl` agrees with this (`wrap_rtl_eq_rtlSpans`). -/
def spansGo : List Char → List Char → List Char
  | [], run => run
  | c :: rest, run =>
    if is_arabic c then spansGo rest (c :: run)
    else run ++ c :: spansGo rest []

/-- Span form of the shaper: each maximal RTL run reversed in place. -/
def rtlSpans (s : List Char) : List Char := spansGo s []

/-- The concrete string " ا" (a space then ALEF, U+0627) on which the
shaper is not an involution: the run's leading space is carried to its
end by the first pass and stays there. -/
def rtlProbe : List Char := [' ', Char.ofNat 0x0627]

/-! ## The filesystem model

An abstract snapshot of the directory tree the program walks.  A node is a
file or a directory; `none` for a directory's children models a child
enumeration that throws (`fs::directory_iterator` failing with, e.g.,
permission denied or a vanished directory).  `none` for a file's size
models a `entry.file_size()` call that throws.  `perms` carries the string
`getPermissions` would return for the entry; timestamps are the Unix
`get_file_times`, which is constantly `("", "")`.  Children are listed in
on-disk enumeration order (the order `fs::directory_iterator` yields);
entries the iterator itself skips under `skip_permission_denied` are
simply absent from the snapshot. -/
inductive FSNode where
  | file (name : String) (size : Option Nat) (perms : String)
  | dir (name : String) (perms : String) (children : Option (List FSNode))
deriving Repr

/-- The entry's filename (`entry.path().filename().string()`). -/
def FSNode.name : FSNode → String
  | .file n _ _ => n
  | .dir n _ _ => n

/-- `entry.is_directory()`. -/
def FSNode.isDir : FSNode → Bool
  | .file _ _ _ => false
  | .dir _ _ _ => true

/-- The outcome of `entry.file_size()`: `some n` the byte count, `none` a
throwing call.  Directories are never queried. -/
def FSNode.sizeQ : FSNode → Option Nat
  | .file _ sz _ => sz
  | .dir _ _ _ => none

/-- The string `getPermissions(entry)` returns. -/
def FSNode.permsQ : FSNode → String
  | .file _ _ p => p
  | .dir _ p _ => p

/-- The outcome of enumerating the node as a directory:
`fs::directory_iterator` on a file (or on a directory whose listing
throws) fails — `none`; otherwise the raw child list. -/
def FSNode.childrenQ : FSNode → Option (List FSNode)
  | .file _ _ _ => none
  | .dir _ _ c => c

mutual
/-- Structural size of a node (used as traversal fuel). -/
def nodeSize : FSNode → Nat
  | .file _ _ _ => 1
  | .dir _ _ none => 1
  | .dir _ _ (some l) => 1 + listSize l
/-- Structural size of a child list. -/
def listSize : List FSNode → Nat
  | [] => 0
  | n :: r => nodeSize n + listSize r
end

/-- `Args` (args.h), restricted to the fields the traversal reads, plus
`console`: the process-wide `is_console()` signal (stdout is a terminal),
which the source reads through a global call and this embedding threads as
configuration. -/
structure Args where
  folder : String
  excludePattern : String
  csvOut : String
  maxLevel : Int
  showHidden : Bool
  showDirsOnly : Bool
  showSize : Bool
  showPerms : Bool
  nocolors : Bool
  console : Bool
deriving Repr, DecidableEq

/-- The defaults `Args::Args()` establishes (args.cpp), with `console`
defaulting to an interactive terminal. -/
def defaultArgs : Args :=
  { folder := ".", excludePattern := "", csvOut := "", maxLevel := 0,
    showHidden := false, showDirsOnly := false, showSize := false,
    showPerms := false, nocolors := false, console := true }

/-- `enable_colors` (etree.cpp, line 320): colors are on iff the user did
not pass `-nc` and stdout is a console. -/
def enable_colors (a : Args) : Bool := !a.nocolors && a.console

/-- ANSI escapes (etree.cpp, lines 52-56). -/
def dircolor : String := "\x1b[1;34m"

/-- Green for files (etree.cpp, line 53). -/
def filecolor : String := "\x1b[0;32m"

/-- Cyan for permissions (etree.cpp, line 54). -/
def permcolor : String := "\x1b[0;36m"

/-- Yellow for sizes (etree.cpp, line 55). -/
def sizecolor : String := "\x1b[0;33m"

/-- Reset (etree.cpp, line 56). -/
def resetcolor : String := "\x1b[0m"

/-- The hidden-name test of the Unix filter (etree.cpp, lines 753-756):
`!name.empty() && name[0] == '.'`. -/
def startsWithDot (n : String) : Bool :=
  match n.toList with
  | [] => false
  | c :: _ => c = '.'

/-- The per-candidate filter of `printTree`'s enumeration loop (etree.cpp,
lines 752-767): keep the entry unless it is hidden (when hidden files are
off), matches a non-empty exclude pattern, or is a non-directory under
`-d`. -/
def keepEntry (a : Args) (e : FSNode) : Bool :=
  (a.showHidden || !startsWithDot e.name) &&
  (a.excludePattern = "" || !matchesPattern e.name a.excludePattern) &&
  (!a.showDirsOnly || e.isDir)

/-- Code-point lexicographic string comparison (non-strict).  This is the
order `std::string::operator<` induces: byte-wise comparison with bytes
taken unsigned, which on UTF-8 data coincides with code-point
lexicographic order. -/
def charsLe : List Char → List Char → Bool
  | [], _ => true
  | _ :: _, [] => false
  | a :: as, b :: bs => if a = b then charsLe as bs else decide (a < b)

/-- The sort key relation of etree.cpp, lines 776-778: filenames compared
by `std::string::operator<`. -/
def nameLe (x y : FSNode) : Bool := charsLe x.name.toList y.name.toList

/-- Insert an entry into a name-sorted list, before the first entry it
compares `≤` to. -/
def insertByName (e : FSNode) : List FSNode → List FSNode
  | [] => [e]
  | x :: xs => if nameLe e x then e :: x :: xs else x :: insertByName e xs

/-- The `std::sort` of etree.cpp, lines 776-778, realised as insertion
sort: the result is the permutation of the input that is sorted by name
(`sortByName_sorted`/`sortByName_perm` below), which pins `std::sort`'s
output exactly whenever names are distinct — the only case in which
`std::sort` with a strict comparator promises anything about tie order,
and the only case a real directory listing produces. -/
def sortByName : List FSNode → List FSNode
  | [] => []
  | e :: r => insertByName e (sortByName r)

/-- Filtered and sorted children, as the enumeration loop plus the sort
produce them. -/
def listChildren (a : Args) (l : List FSNode) : List FSNode :=
  sortByName (l.filter (keepEntry a))

/-- The relative-path join (etree.cpp, lines 797-799 and 841-843):
`relpath.empty() ? name : relpath + "/" + name` — the same formula the
source uses both for a row's path (`fs::path(relpath) / filename`) and for
the `relpath` handed to a child's recursion. -/
def joinRel (rel name : String) : String :=
  if rel = "" then name else rel ++ "/" ++ name

/-- The report written to `std::cerr` when enumerating a directory throws
(etree.cpp, lines 769-772); the `ex.what()` suffix of the message is
abstracted away, the failing path kept. -/
def enumFailMsg (path : String) : String :=
  "[etree] Failed to enumerate directory " ++ path

/-! ## Traversal state and emitted data -/

/-- `CsvRow` (etree.h): one exported row.  `created`/`modified` hold what
the Unix `get_file_times` returns — always `("", "")`. -/
structure CsvRow where
  relpath : String
  name : String
  type : String
  perms : String
  bytes : Nat
  created : String
  modified : String
deriving Repr, DecidableEq

/-- One rendered entry line (the pieces `printTree` streams to `std::cout`
for one entry, etree.cpp lines 790-834): accumulated indentation, color
escape (empty when colors are off), branch glyph, name, then the optional
size suffix `" [N B]"` (carried as the numeric value it displays; the
locale thousands-grouping of `formatSizeBytes` is presentation only) and
the optional permission suffix `" (perms)"`. -/
structure Line where
  indent : String
  color : String
  branch : String
  name : String
  sizeField : Option Nat
  permsField : Option String
deriving Repr, DecidableEq

/-- `TreeStats` (etree.h): the aggregate the recursion mutates by
reference. -/
structure TreeStats where
  maxDepth : Int
  folders : Nat
  files : Nat
  csvRows : List CsvRow
deriving Repr, DecidableEq

/-- Ghost trace record: everything one loop iteration of `printTree`
computes for one visited entry, written down for the proofs.  `parentInfo`
is the indentation and last-of-siblings flag of the directory entry whose
recursion is running (`none` in the root call).  The instrumentation does
not feed back into any rendered or exported data. -/
structure Visit where
  level : Int
  name : String
  isDir : Bool
  isLast : Bool
  indent : String
  branch : String
  relpath : String
  parentRel : String
  sizeQ : Option Nat
  perms : String
  parentInfo : Option (String × Bool)
deriving Repr, DecidableEq

/-- The whole mutable context of a run: the stats aggregate, the stdout
entry lines, the stderr reports, and the ghost visit trace. -/
structure RunState where
  stats : TreeStats
  out : List Line
  errs : List String
  visits : List Visit
deriving Repr, DecidableEq

/-- The zero-initialised state `main` starts from. -/
def initState : RunState :=
  { stats := { maxDepth := 0, folders := 0, files := 0, csvRows := [] },
    out := [], errs := [], visits := [] }

/-- The data one loop iteration computes for entry `e` (etree.cpp, lines
781-785 and 796-799): position flag, branch glyph, relative path, and the
entry's own metadata, together with the call context. -/
def mkVisit (level : Int) (indent relpath : String) (pInfo : Option (String × Bool))
    (isLast : Bool) (e : FSNode) : Visit :=
  { level := level, name := e.name, isDir := e.isDir, isLast := isLast,
    indent := indent,
    branch := if isLast then "`-- " else "|-- ",
    relpath := joinRel relpath e.name, parentRel := relpath,
    sizeQ := e.sizeQ, perms := e.permsQ, parentInfo := pInfo }

/-- The `CsvRow` built for a visited entry (etree.cpp, lines 796-813):
type tag from `is_directory`, bytes `0` for a directory and on a throwing
size query, Unix timestamps empty. -/
def rowOf (v : Visit) : CsvRow :=
  { relpath := v.relpath, name := v.name,
    type := if v.isDir then "folder" else "file",
    perms := v.perms,
    bytes := if v.isDir then 0 else v.sizeQ.getD 0,
    created := "", modified := "" }

/-- The rendered line for a visited entry (etree.cpp, lines 790-793 and
816-833): directory/file color when colors are enabled, the `-s` size
suffix showing `0` for directories and on a throwing size query, the `-p`
permissions suffix. -/
def lineOf (a : Args) (v : Visit) : Line :=
  { indent := v.indent,
    color := if enable_colors a then (if v.isDir then dircolor else filecolor) else "",
    branch := v.branch, name := v.name,
    sizeField := if a.showSize then some (if v.isDir then 0 else v.sizeQ.getD 0) else none,
    permsField := if a.showPerms then some v.perms else none }

/-! ## The traversal (etree.cpp, lines 737-850, Unix fork)

`printTreeF` is `printTree` with explicit fuel; the fuel strictly exceeds
the recursion depth whenever it is at least `nodeSize` of the node, which
the wrapper `printTree` instantiates, so the fuel-out branch is never
taken from the wrapper (`printTreeF_fuel` below).  The per-directory loop
is `printLoopGo`, abstracted over the recursive call it makes for child
directories. -/

/-- The entry loop of `printTree` (etree.cpp, lines 781-847): for each
entry in order, compute its branch glyph from `i + 1 == entries.size()`,
print the line (no CSV export) or append the row (CSV export), then for a
directory bump `stats.folders` and recurse with `level + 1`, the prefix
extended by `"    "` after a last entry and `"|   "` otherwise, and the
extended relative path — and for a file bump `stats.files`. -/
def printLoopGo
    (recur : FSNode → String → Int → String → String → Option (String × Bool) → RunState → RunState)
    (a : Args) (path : String) (level : Int) (indent relpath : String)
    (pInfo : Option (String × Bool)) : List FSNode → RunState → RunState
  | [], st => st
  | e :: rest, st =>
    let isLast : Bool := rest.isEmpty
    let v : Visit := mkVisit level indent relpath pInfo isLast e
    let st1 : RunState :=
      if a.csvOut = "" then
        { st with out := st.out ++ [lineOf a v], visits := st.visits ++ [v] }
      else
        { st with stats := { st.stats with csvRows := st.stats.csvRows ++ [rowOf v] },
                  visits := st.visits ++ [v] }
    let st2 : RunState :=
      if e.isDir then
        recur e (path ++ "/" ++ e.name) (level + 1)
          (indent ++ (if isLast then "    " else "|   "))
          (joinRel relpath e.name) (some (indent, isLast))
          { st1 with stats := { st1.stats with folders := st1.stats.folders + 1 } }
      else
        { st1 with stats := { st1.stats with files := st1.stats.files + 1 } }
    printLoopGo recur a path level indent relpath pInfo rest st2

/-- `printTree` with fuel: return on a crossed depth limit; on a failed
enumeration report to stderr and return; otherwise run the entry loop on
the filtered, sorted children and finally raise `stats.maxDepth` to the
current level. -/
def printTreeF : Nat → Args → FSNode → String → Int → String → String →
    Option (String × Bool) → RunState → RunState
  | 0, _, _, _, _, _, _, _, st => st
  | f + 1, a, node, path, level, indent, relpath, pInfo, st =>
    if a.maxLevel > 0 ∧ level > a.maxLevel then st
    else
      match node.childrenQ with
      | none => { st with errs := st.errs ++ [enumFailMsg path] }
      | some l =>
        let st1 := printLoopGo (printTreeF f a) a path level indent relpath pInfo
          (listChildren a l) st
        { st1 with stats := { st1.stats with maxDepth := max st1.stats.maxDepth level } }

/-- `printTree` (etree.cpp, lines 737-850): the fuelled traversal at
always-sufficient fuel. -/
def printTree (a : Args) (node : FSNode) (path : String) (level : Int)
    (indent relpath : String) (pInfo : Option (String × Bool)) (st : RunState) : RunState :=
  printTreeF (nodeSize node) a node path level indent relpath pInfo st

/-- `main` forces `-nc` when stdout is not a console (main.cpp:
`if (!is_console()) args.nocolors = true;`). -/
def effArgs (a : Args) : Args :=
  if a.console then a else { a with nocolors := true }

/-- The summary line of a non-export run (main.cpp; printed after a
leading blank line, which is omitted here). -/
def summaryLine (s : TreeStats) : String :=
  "The tree counts " ++ toString s.maxDepth ++ " layers, " ++
    toString s.folders ++ " folders, " ++ toString s.files ++ " files."

/-- The outcome of `main` past argument handling: whether the root label
line was printed, the final traversal state, and the summary line of a
non-export run. -/
structure MainResult where
  rootShown : Bool
  state : RunState
  summary : Option String
deriving Repr, DecidableEq

/-- The Unix `main` (main.cpp) after a successful parse, neither `-v` nor
help: disable colors off-console, print the root label unless exporting,
call `printTree(args.folder, args, 1, "", true, stats, "")` on the
zero-initialised stats, then print the summary (no export) or hand the
rows to `writeTsv` (export — the writer is outside this model). -/
def mainRun (a0 : Args) (root : FSNode) : MainResult :=
  let a := effArgs a0
  let st := printTree a root a.folder 1 "" "" none initState
  { rootShown := a.csvOut = "",
    state := st,
    summary := if a.csvOut = "" then some (summaryLine st.stats) else none }

/-! ## Pure effect view of the traversal

`specEffF` recomputes, as plain data, everything a `printTree` call adds
to the run state: the visit trace it appends, the stderr reports it emits,
and the sequence of levels at which it raises `stats.maxDepth`.
`printTreeF_applyEff` below proves that the stateful traversal is exactly
`applyEff` of this data, which the claim proofs then reason about. -/

/-- What one traversal call contributes: visits in emission order, stderr
reports in emission order, and the `stats.maxDepth` update levels in
execution order. -/
structure Effects where
  visits : List Visit
  errs : List String
  depths : List Int
deriving Repr, DecidableEq

/-- The contribution of a call that contributes nothing. -/
def noEff : Effects := ⟨[], [], []⟩

/-- Sequencing of contributions. -/
def eapp (e₁ e₂ : Effects) : Effects :=
  ⟨e₁.visits ++ e₂.visits, e₁.errs ++ e₂.errs, e₁.depths ++ e₂.depths⟩

/-- Pure form of the entry loop: the contribution of one iteration is its
visit, then its subtree's contribution, then the remaining iterations'. -/
def specLoopGo
    (recur : FSNode → String → Int → String → String → Option (String × Bool) → Effects)
    (a : Args) (path : String) (level : Int) (indent relpath : String)
    (pInfo : Option (String × Bool)) : List FSNode → Effects
  | [] => noEff
  | e :: rest =>
    let isLast : Bool := rest.isEmpty
    let v : Visit := mkVisit level indent relpath pInfo isLast e
    let sub : Effects :=
      if e.isDir then
        recur e (path ++ "/" ++ e.name) (level + 1)
          (indent ++ (if isLast then "    " else "|   "))
          (joinRel relpath e.name) (some (indent, isLast))
      else noEff
    eapp ⟨[v], [], []⟩
      (eapp sub (specLoopGo recur a path level indent relpath pInfo rest))

/-- Pure form of the fuelled traversal: nothing under a crossed depth
limit; a single stderr report on a failed enumeration; otherwise the
loop's contribution followed by this call's `maxDepth` update. -/
def specEffF : Nat → Args → FSNode → String → Int → String → String →
    Option (String × Bool) → Effects
  | 0, _, _, _, _, _, _, _ => noEff
  | f + 1, a, node, path, level, indent, relpath, pInfo =>
    if a.maxLevel > 0 ∧ level > a.maxLevel then noEff
    else
      match node.childrenQ with
      | none => ⟨[], [enumFailMsg path], []⟩
      | some l =>
        eapp (specLoopGo (specEffF f a) a path level indent relpath pInfo (listChildren a l))
          ⟨[], [], [level]⟩

/-- The pure contribution of `printTree` at always-sufficient fuel. -/
def specEff (a : Args) (node : FSNode) (path : String) (level : Int)
    (indent relpath : String) (pInfo : Option (String × Bool)) : Effects :=
  specEffF (nodeSize node) a node path level indent relpath pInfo

/-- Replaying a contribution onto a run state: visits are appended; in
export mode each visit contributes its row, otherwise its rendered line;
directory visits bump `folders` and the rest bump `files`; the `maxDepth`
updates are folded in execution order. -/
def applyEff (a : Args) (E : Effects) (st : RunState) : RunState :=
  { stats :=
      { maxDepth := E.depths.foldl max st.stats.maxDepth,
        folders := st.stats.folders + E.visits.countP (fun v => v.isDir),
        files := st.stats.files + E.visits.countP (fun v => !v.isDir),
        csvRows := st.stats.csvRows ++
          (if a.csvOut = "" then [] else E.visits.map rowOf) },
    out := st.out ++ (if a.csvOut = "" then E.visits.map (lineOf a) else []),
    errs := st.errs ++ E.errs,
    visits := st.visits ++ E.visits }

/-! ## Spec-side artefacts for individual claims -/

/-- Sibling loop of the spec's pre-order listing: each entry contributes
its own `(level, name)` pair, then its whole subtree, then the remaining
siblings follow. -/
def preLoopGo (recur : FSNode → Int → List (Int × String)) (level : Int) :
    List FSNode → List (Int × String)
  | [] => []
  | e :: rest =>
    (level, e.name) ::
      ((if e.isDir then recur e (level + 1) else []) ++ preLoopGo recur level rest)

/-- Modelled from the spec (§4.5, §5): the deterministic pre-order listing
of the surviving entries — children of each directory in code-point
lexicographic filename order, each child's whole subtree listed before the
next sibling — as `(level, name)` pairs. -/
def preorderF : Nat → Args → FSNode → Int → List (Int × String)
  | 0, _, _, _ => []
  | f + 1, a, node, level =>
    if a.maxLevel > 0 ∧ level > a.maxLevel then []
    else
      match node.childrenQ with
      | none => []
      | some l => preLoopGo (preorderF f a) level (listChildren a l)

/-- The spec's pre-order listing at always-sufficient fuel. -/
def preorderSpec (a : Args) (node : FSNode) (level : Int) : List (Int × String) :=
  preorderF (nodeSize node) a node level

mutual
/-- Well-formed snapshot: every entry name in the tree is non-empty and
does not begin with `/` (true of any name a directory iterator yields). -/
def nodeWF : FSNode → Bool
  | .file n _ _ => n ≠ "" && n.toList.head? ≠ some '/'
  | .dir n _ none => n ≠ "" && n.toList.head? ≠ some '/'
  | .dir n _ (some l) => (n ≠ "" && n.toList.head? ≠ some '/') && listWF l
/-- Well-formedness of a child list. -/
def listWF : List FSNode → Bool
  | [] => true
  | e :: r => nodeWF e && listWF r
end

mutual
/-- Rewrite every file's size-query outcome through `g`, leaving names,
kinds, permissions and structure unchanged (used to show a run's shape
does not depend on size queries, only row bytes and size suffixes do). -/
def mapSizes (g : Option Nat → Option Nat) : FSNode → FSNode
  | .file n sz p => .file n (g sz) p
  | .dir n p none => .dir n p none
  | .dir n p (some l) => .dir n p (some (mapSizesList g l))
/-- `mapSizes` over a child list. -/
def mapSizesList (g : Option Nat → Option Nat) : List FSNode → List FSNode
  | [] => []
  | e :: r => mapSizes g e :: mapSizesList g r
end

/-- A visit with its size-query field blanked (the projection of the trace
that `mapSizes` provably preserves). -/
def stripSize (v : Visit) : Visit := { v with sizeQ := none }

/-- The bytes a single plain pattern byte turns into across the three
rewriting passes of `matchesPattern`. -/
def chunkOf (b : Nat) : List Nat :=
  if b = 46 then [92, 46]
  else if b = 63 then [46]
  else if b = 42 then [46, 42]
  else [b]

/-- The regex token a plain pattern byte compiles to: `*` to `.*` (any
run of non-terminator bytes), `?` to `.` (one non-terminator byte),
anything else to itself as a literal. -/
def tokOf (b : Nat) : RTok :=
  if b = 42 then .star .dot
  else if b = 63 then .atom .dot
  else .atom (.lit b)

/-- Consistency of a call's ghost parent information with its indentation
argument: the root call carries no parent and the empty indentation; a
recursive call carries its parent entry's indentation and last-sibling
flag, and an indentation extending the parent's by four spaces after a
last sibling and by `"|   "` otherwise. -/
def pInfoOk (pInfo : Option (String × Bool)) (indent : String) : Prop :=
  match pInfo with
  | none => indent = ""
  | some (pi, pl) => indent = pi ++ (if pl then "    " else "|   ")

/-- The size-query transform `mapSizes g` induces on a recorded visit:
file visits carry the transformed query outcome, directory visits are
never queried. -/
def mapSizeQ (g : Option Nat → Option Nat) (v : Visit) : Visit :=
  { v with sizeQ := if v.isDir then v.sizeQ else g v.sizeQ }

/-! # Lemmas and claim theorems -/

/-! ## Pattern matcher: `matchesPattern` against the glob specification (C3) -/

theorem utf8Bytes_ge (c : Char) (h : 128 ≤ c.toNat) :
    ∀ b ∈ utf8Bytes c, 128 ≤ b := by
  intro b hb
  simp only [utf8Bytes] at hb
  rw [if_neg (by omega)] at hb
  by_cases h2 : c.toNat < 2048
  · rw [if_pos h2] at hb
    simp at hb
    rcases hb with h | h <;> omega
  · rw [if_neg h2] at hb
    by_cases h3 : c.toNat < 65536
    · rw [if_pos h3] at hb
      simp at hb
      rcases hb with h | h | h <;> omega
    · rw [if_neg h3] at hb
      simp at hb
      rcases hb with h | h | h | h <;> omega

theorem utf8Bytes_plain (c : Char) (hc : plainPatChar c = true) :
    ∀ b ∈ utf8Bytes c, plainPatByte b = true := by
  intro b hb
  by_cases h1 : c.toNat < 128
  · have hb' : b = c.toNat := by
      simp only [utf8Bytes] at hb
      rw [if_pos h1] at hb
      simpa using hb
    rw [hb']
    exact hc
  · have h128 : 128 ≤ b := utf8Bytes_ge c (by omega) b hb
    simp only [plainPatByte]
    simp
    omega

theorem strBytes_plain (p : String) (hp : ∀ c ∈ p.toList, plainPatChar c = true) :
    ∀ b ∈ strBytes p, plainPatByte b = true := by
  intro b hb
  simp only [strBytes, List.mem_flatten, List.mem_map] at hb
  obtain ⟨l, ⟨c, hc, hl⟩, hbl⟩ := hb
  exact utf8Bytes_plain c (hp c hc) b (hl ▸ hbl)

theorem parseRx_other (b : Nat) (rest : List Nat) (acc : List RTok)
    (h1 : b ≠ 92) (h2 : b ≠ 46) (h3 : b ≠ 42) (h4 : b ≠ 43) :
    parseRx (b :: rest) acc = parseRx rest (.atom (.lit b) :: acc) := by
  rw [parseRx.eq_def]
  split <;> first | rfl | simp_all

theorem parseRx_esc (b : Nat) (rest : List Nat) (acc : List RTok) :
    parseRx (92 :: b :: rest) acc = parseRx rest (.atom (.lit b) :: acc) := by
  rw [parseRx.eq_def]

theorem parseRx_dot (rest : List Nat) (acc : List RTok) :
    parseRx (46 :: rest) acc = parseRx rest (.atom .dot :: acc) := by
  rw [parseRx.eq_def]

theorem parseRx_starq (rest : List Nat) (a : RAtom) (acc : List RTok) :
    parseRx (42 :: rest) (.atom a :: acc) = parseRx rest (.star a :: acc) := by
  rw [parseRx.eq_def]

theorem transform_cons (b : Nat) (rest : List Nat) :
    starExp (qmToDot (escDots (b :: rest))) =
      chunkOf b ++ starExp (qmToDot (escDots rest)) := by
  by_cases h1 : b = 46
  · subst h1; simp [escDots, qmToDot, starExp, chunkOf]
  · by_cases h2 : b = 63
    · subst h2; simp [escDots, qmToDot, starExp, chunkOf, h1]
    · by_cases h3 : b = 42
      · subst h3; simp [escDots, qmToDot, starExp, chunkOf, h1, h2]
      · simp [escDots, qmToDot, starExp, chunkOf, h1, h2, h3]

theorem parseRx_chunks (pat : List Nat) (acc : List RTok)
    (hp : ∀ b ∈ pat, plainPatByte b = true) :
    parseRx (starExp (qmToDot (escDots pat))) acc = acc.reverse ++ pat.map tokOf := by
  induction pat generalizing acc with
  | nil => simp [escDots, qmToDot, starExp, parseRx]
  | cons b rest ih =>
    have hb : plainPatByte b = true := hp b (by simp)
    have hrest : ∀ x ∈ rest, plainPatByte x = true := fun x hx => hp x (by simp [hx])
    rw [transform_cons]
    by_cases h1 : b = 46
    · subst h1
      show parseRx (92 :: 46 :: _) acc = _
      rw [parseRx_esc]
      try simp only [List.append_eq, List.nil_append]
      rw [ih _ hrest]
      simp [tokOf]
    · by_cases h2 : b = 63
      · subst h2
        show parseRx (46 :: _) acc = _
        rw [parseRx_dot]
        try simp only [List.append_eq, List.nil_append]
        rw [ih _ hrest]
        simp [tokOf]
      · by_cases h3 : b = 42
        · subst h3
          show parseRx (46 :: 42 :: _) acc = _
          rw [parseRx_dot, parseRx_starq]
          try simp only [List.append_eq, List.nil_append]
          rw [ih _ hrest]
          simp [tokOf]
        · have hbs : b ≠ 92 := by
            intro h; rw [h] at hb; simp [plainPatByte] at hb
          have hpl : b ≠ 43 := by
            intro h; rw [h] at hb; simp [plainPatByte] at hb
          have hch : chunkOf b = [b] := by simp [chunkOf, h1, h2, h3]
          rw [hch, List.singleton_append]
          rw [parseRx_other b _ acc hbs h1 h3 hpl]
          rw [ih _ hrest]
          simp [tokOf, h2, h3]

theorem globF_other (f : Nat) (b : Nat) (ps s : List Nat)
    (h1 : b ≠ 42) (h2 : b ≠ 63) :
    globMatchSpecF (f + 1) (b :: ps) s =
      match s with
      | [] => false
      | x :: xs => eqCI b x && globMatchSpecF f ps xs := by
  rw [globMatchSpecF.eq_def]
  split <;> first | rfl | simp_all

theorem rmatchF_atom_nil (f : Nat) (a : RAtom) (ts : List RTok) :
    rmatchF (f + 1) (.atom a :: ts) [] = false := rfl

theorem rmatchF_atom_cons (f : Nat) (a : RAtom) (ts : List RTok) (x : Nat) (xs : List Nat) :
    rmatchF (f + 1) (.atom a :: ts) (x :: xs) = (atomOk a x && rmatchF f ts xs) := rfl

theorem rmatchF_star_nil (f : Nat) (a : RAtom) (ts : List RTok) :
    rmatchF (f + 1) (.star a :: ts) [] = rmatchF f ts [] := by
  show (rmatchF f ts [] || false) = _
  simp

theorem rmatchF_star_cons (f : Nat) (a : RAtom) (ts : List RTok) (x : Nat) (xs : List Nat) :
    rmatchF (f + 1) (.star a :: ts) (x :: xs) =
      (rmatchF f ts (x :: xs) || (atomOk a x && rmatchF f (.star a :: ts) xs)) := rfl

theorem globF_star_nil (f : Nat) (ps : List Nat) :
    globMatchSpecF (f + 1) (42 :: ps) [] = globMatchSpecF f ps [] := by
  rw [globMatchSpecF.eq_def]
  simp

theorem globF_star_cons (f : Nat) (ps : List Nat) (x : Nat) (xs : List Nat) :
    globMatchSpecF (f + 1) (42 :: ps) (x :: xs) =
      (globMatchSpecF f ps (x :: xs) ||
        (!(x = 10 || x = 13) && globMatchSpecF f (42 :: ps) xs)) := rfl

theorem globF_qm_nil (f : Nat) (ps : List Nat) :
    globMatchSpecF (f + 1) (63 :: ps) [] = false := rfl

theorem globF_qm_cons (f : Nat) (ps : List Nat) (x : Nat) (xs : List Nat) :
    globMatchSpecF (f + 1) (63 :: ps) (x :: xs) =
      (!(x = 10 || x = 13) && globMatchSpecF f ps xs) := rfl

theorem rmatchF_eq_glob (f : Nat) : ∀ (pat s : List Nat),
    (∀ b ∈ pat, plainPatByte b = true) → pat.length + s.length < f →
    rmatchF f (pat.map tokOf) s = globMatchSpecF f pat s := by
  induction f with
  | zero => intro pat s _ h; omega
  | succ f ih =>
    intro pat s hp hb
    match pat with
    | [] => rfl
    | b :: ps =>
      have hps : ∀ x ∈ ps, plainPatByte x = true := fun x hx => hp x (by simp [hx])
      by_cases h1 : b = 42
      · subst h1
        show rmatchF (f + 1) (.star .dot :: ps.map tokOf) s = _
        cases s with
        | nil =>
          rw [rmatchF_star_nil, globF_star_nil]
          exact ih ps [] hps (by simp at hb ⊢; omega)
        | cons x xs =>
          rw [rmatchF_star_cons, globF_star_cons]
          rw [ih ps (x :: xs) hps (by simp at hb ⊢; omega)]
          have h2 : rmatchF f (RTok.star RAtom.dot :: List.map tokOf ps) xs
              = globMatchSpecF f (42 :: ps) xs := by
            have h3 := ih (42 :: ps) xs hp (by simp at hb ⊢; omega)
            simpa [tokOf] using h3
          simp [atomOk, h2]
      · by_cases h2 : b = 63
        · subst h2
          show rmatchF (f + 1) (.atom .dot :: ps.map tokOf) s = _
          cases s with
          | nil => rfl
          | cons x xs =>
            rw [rmatchF_atom_cons, globF_qm_cons]
            rw [ih ps xs hps (by simp at hb ⊢; omega)]
            simp [atomOk]
        · rw [List.map_cons,
            show tokOf b = .atom (.lit b) by simp [tokOf, h1, h2]]
          rw [globF_other f b ps s h1 h2]
          cases s with
          | nil => rfl
          | cons x xs =>
            rw [rmatchF_atom_cons]
            rw [ih ps xs hps (by simp at hb ⊢; omega)]
            simp [atomOk]

theorem matchesPattern_eq_spec (name pattern : String)
    (hp : ∀ c ∈ pattern.toList, plainPatChar c = true) :
    matchesPattern name pattern = matchesSpec name pattern := by
  unfold matchesPattern matchesSpec
  by_cases h : pattern = ""
  · simp [h]
  · rw [if_neg h]
    rw [parseRx_chunks (strBytes pattern) [] (strBytes_plain pattern hp)]
    unfold rmatch globMatchSpec
    simp only [List.reverse_nil, List.nil_append, List.length_map]
    rw [rmatchF_eq_glob _ (strBytes pattern) (strBytes name) (strBytes_plain pattern hp)
      (by omega)]
    simp [h]

/-- C3, counterexample: the claimed glob semantics fails in both
directions.  The pattern `a+` should match only the literal name `a+` —
every character other than `*` and `?`, including `+`, is claimed to be
matched literally — but the code leaves `+` un-escaped in the generated
regex, where it means "one or more", so `matchesPattern` accepts the name
`aaa` while the claimed semantics rejects it.  And `?` does not match
"exactly one character": it compiles to ECMAScript `.`, which matches one
byte that is not a line terminator, so the two-byte character `é`
(U+00E9) is not matched by a single `?`, and a newline is matched by
neither `?` nor `*`, both contrary to the claim. -/
theorem claim_C3_counterexample :
    matchesPattern "aaa" "a+" = true ∧ matchesSpec "aaa" "a+" = false ∧
      matchesPattern "a\u00E9" "a?" = false ∧ matchesPattern "a\nb" "a?b" = false := by
  refine ⟨?_, ?_, ?_, ?_⟩ <;> decide

/-- C3, amended: for every name N and pattern P whose characters are all
plain (not one of `\ + ( ) [ ] { } | ^ $`, the characters that keep their
regex meaning because the rewriting escapes only `.`), matches(N, P)
returns true exactly when the UTF-8 bytes of N match those of P under
anchored, case-insensitive (ASCII-folded), byte-level glob semantics in
which `*` matches any run of bytes other than the line terminators LF and
CR (including the empty run), `?` matches exactly one such byte, and
every other pattern byte — including `.` — is matched literally; the
empty pattern never matches any name. -/
theorem claim_C3 (name pattern : String)
    (hp : ∀ c ∈ pattern.toList, plainPatChar c = true) :
    matchesPattern name pattern = matchesSpec name pattern :=
  matchesPattern_eq_spec name pattern hp

/-- C3, witness: the amended theorem applied to the spec's own test
vector, name `FILE.TXT` against pattern `*.txt`, together with the spec's
two concrete expected outcomes. -/
theorem claim_C3_witness :
    (∀ c ∈ ("*.txt" : String).toList, plainPatChar c = true) ∧
      matchesPattern "FILE.TXT" "*.txt" = matchesSpec "FILE.TXT" "*.txt" ∧
      matchesPattern "FILE.TXT" "*.txt" = true ∧
      matchesPattern "file.txtx" "*.txt" = false :=
  ⟨by decide, claim_C3 "FILE.TXT" "*.txt" (by decide), by decide, by decide⟩

/-! ## RTL shaper: involution of `wrap_rtl` (C7) -/

theorem is_arabic_ne_space {c : Char} (h : is_arabic c = true) : c ≠ ' ' := by
  intro hc; subst hc; simp [is_arabic] at h

theorem wrapFlush_no_space (buf : List Char) (h : ∀ c ∈ buf, c ≠ ' ') :
    wrapFlush buf = buf.reverse := by
  unfold wrapFlush
  have h1 : buf.reverse.takeWhile (fun c => c = ' ') = [] := by
    cases hb : buf.reverse with
    | nil => simp
    | cons x xs =>
      have hx : x ∈ buf := by
        have : x ∈ buf.reverse := by rw [hb]; simp
        simpa using this
      rw [List.takeWhile_cons]
      simp [h x hx]
  have h2 : buf.reverse.dropWhile (fun c => c = ' ') = buf.reverse := by
    cases hb : buf.reverse with
    | nil => simp
    | cons x xs =>
      have hx : x ∈ buf := by
        have : x ∈ buf.reverse := by rw [hb]; simp
        simpa using this
      rw [List.dropWhile_cons]
      simp [h x hx]
  rw [h1, h2, List.append_nil]

theorem wrapGo_eq_spansGo (s : List Char) : ∀ (buf : List Char) (hasRtl : Bool),
    (∀ c ∈ s, c ≠ ' ') → (∀ c ∈ buf, is_arabic c = true) →
    (hasRtl = true ↔ buf ≠ []) →
    wrapGo s buf hasRtl = spansGo s buf.reverse := by
  induction s with
  | nil =>
    intro buf hasRtl _ hbuf hiff
    show (if hasRtl then wrapFlush buf else buf) = buf.reverse
    cases hasRtl with
    | true =>
      rw [if_pos rfl]
      exact wrapFlush_no_space buf (fun c hc => is_arabic_ne_space (hbuf c hc))
    | false =>
      have : buf = [] := by
        by_contra hne
        exact absurd (hiff.mpr hne) (by simp)
      subst this; rfl
  | cons c rest ih =>
    intro buf hasRtl hs hbuf hiff
    have hrest : ∀ x ∈ rest, x ≠ ' ' := fun x hx => hs x (by simp [hx])
    have hcs : c ≠ ' ' := hs c (by simp)
    show wrapGo (c :: rest) buf hasRtl = spansGo (c :: rest) buf.reverse
    by_cases ha : is_arabic c = true
    · rw [show wrapGo (c :: rest) buf hasRtl = wrapGo rest (buf ++ [c]) true by
        simp [wrapGo, ha]]
      rw [show spansGo (c :: rest) buf.reverse = spansGo rest (c :: buf.reverse) by
        simp [spansGo, ha]]
      have : (buf ++ [c]).reverse = c :: buf.reverse := by simp
      rw [← this]
      exact ih (buf ++ [c]) true hrest
        (by intro x hx; rcases List.mem_append.mp hx with h | h
            · exact hbuf x h
            · simp at h; subst h; exact ha)
        (by simp)
    · rw [show wrapGo (c :: rest) buf hasRtl =
          (if hasRtl then wrapFlush buf else buf) ++ c :: wrapGo rest [] false by
        simp [wrapGo, ha, hcs]]
      rw [show spansGo (c :: rest) buf.reverse =
          buf.reverse ++ c :: spansGo rest [] by
        simp [spansGo, ha]]
      have hflush : (if hasRtl then wrapFlush buf else buf) = buf.reverse := by
        cases hasRtl with
        | true =>
          rw [if_pos rfl]
          exact wrapFlush_no_space buf (fun x hx => is_arabic_ne_space (hbuf x hx))
        | false =>
          have : buf = [] := by
            by_contra hne
            exact absurd (hiff.mpr hne) (by simp)
          subst this; rfl
      rw [hflush, ih [] false hrest (by simp) (by simp)]
      rfl

theorem wrap_rtl_eq_rtlSpans (s : List Char) (hs : ∀ c ∈ s, c ≠ ' ') :
    wrap_rtl s = rtlSpans s := by
  unfold wrap_rtl rtlSpans
  exact wrapGo_eq_spansGo s [] false hs (by simp) (by simp)

theorem spansGo_arabic_chunk (r : List Char) : ∀ (s run : List Char),
    (∀ c ∈ r, is_arabic c = true) →
    spansGo (r ++ s) run = spansGo s (r.reverse ++ run) := by
  induction r with
  | nil => intro s run _; simp
  | cons c r' ih =>
    intro s run hr
    have hc : is_arabic c = true := hr c (by simp)
    rw [List.cons_append, show spansGo (c :: (r' ++ s)) run = spansGo (r' ++ s) (c :: run) by
      simp [spansGo, hc]]
    rw [ih s (c :: run) (fun x hx => hr x (by simp [hx]))]
    simp

theorem spansGo_nonarabic (c : Char) (s run : List Char) (hc : is_arabic c = false) :
    spansGo (c :: s) run = run ++ c :: spansGo s [] := by
  simp [spansGo, hc]

theorem rtlSpans_all_arabic (r : List Char) (hr : ∀ c ∈ r, is_arabic c = true) :
    rtlSpans r = r.reverse := by
  unfold rtlSpans
  have := spansGo_arabic_chunk r [] [] hr
  simpa using this

theorem mem_spansGo (s : List Char) : ∀ (run : List Char) (x : Char),
    x ∈ spansGo s run → x ∈ s ∨ x ∈ run := by
  induction s with
  | nil => intro run x h; exact Or.inr h
  | cons c rest ih =>
    intro run x h
    by_cases hc : is_arabic c = true
    · rw [show spansGo (c :: rest) run = spansGo rest (c :: run) by simp [spansGo, hc]] at h
      rcases ih (c :: run) x h with h1 | h1
      · exact Or.inl (by simp [h1])
      · rcases List.mem_cons.mp h1 with h2 | h2
        · exact Or.inl (by simp [h2])
        · exact Or.inr h2
    · rw [spansGo_nonarabic c rest run (by simpa using hc)] at h
      rcases List.mem_append.mp h with h1 | h1
      · exact Or.inr h1
      · rcases List.mem_cons.mp h1 with h2 | h2
        · exact Or.inl (by simp [h2])
        · rcases ih [] x h2 with h3 | h3
          · exact Or.inl (by simp [h3])
          · simp at h3

theorem takeWhile_all {p : Char → Bool} (l : List Char) :
    ∀ c ∈ l.takeWhile p, p c = true := by
  induction l with
  | nil => simp
  | cons x xs ih =>
    intro c hc
    rw [List.takeWhile_cons] at hc
    by_cases hx : p x = true
    · rw [if_pos hx] at hc
      rcases List.mem_cons.mp hc with h | h
      · subst h; exact hx
      · exact ih c h
    · rw [if_neg hx] at hc; simp at hc

theorem dropWhile_head_false {p : Char → Bool} (l : List Char) :
    ∀ {c : Char} {t : List Char}, l.dropWhile p = c :: t → p c = false := by
  induction l with
  | nil => intro c t h; simp at h
  | cons x xs ih =>
    intro c t h
    rw [List.dropWhile_cons] at h
    by_cases hx : p x = true
    · rw [if_pos hx] at h; exact ih h
    · rw [if_neg hx] at h
      injection h with h1 _
      subst h1
      simpa using hx

theorem rtlSpans_chunk_cons (r : List Char) (c : Char) (t : List Char)
    (hr : ∀ x ∈ r, is_arabic x = true) (hc : is_arabic c = false) :
    rtlSpans (r ++ c :: t) = r.reverse ++ c :: rtlSpans t := by
  unfold rtlSpans
  rw [spansGo_arabic_chunk r (c :: t) [] hr, List.append_nil,
    spansGo_nonarabic c t _ hc]

theorem rtlSpans_involutive_aux : ∀ (n : Nat) (s : List Char), s.length = n →
    rtlSpans (rtlSpans s) = s := by
  intro n
  induction n using Nat.strong_induction_on with
  | _ n ih =>
  intro s hn
  set p : Char → Bool := fun c => is_arabic c with hp
  have hsplit : s.takeWhile p ++ s.dropWhile p = s := List.takeWhile_append_dropWhile p s
  have hr : ∀ c ∈ s.takeWhile p, is_arabic c = true := takeWhile_all s
  cases hd : s.dropWhile p with
  | nil =>
    have hall : ∀ c ∈ s, is_arabic c = true := by
      intro c hc
      have h0 : s.takeWhile p ++ ([] : List Char) = s := by rw [← hd]; exact hsplit
      have h1 : s.takeWhile p = s := by simpa using h0
      exact hr c (by rw [h1]; exact hc)
    rw [rtlSpans_all_arabic s hall,
      rtlSpans_all_arabic s.reverse (by intro c hc; exact hall c (by simpa using hc)),
      List.reverse_reverse]
  | cons c t =>
    have hc : is_arabic c = false := dropWhile_head_false s hd
    have hs1 : rtlSpans s = (s.takeWhile p).reverse ++ c :: rtlSpans t := by
      conv_lhs => rw [← hsplit, hd]
      exact rtlSpans_chunk_cons _ c t hr hc
    have hlen : t.length < n := by
      have h2 := congrArg List.length hsplit
      rw [hd] at h2
      simp at h2
      omega
    rw [hs1,
      rtlSpans_chunk_cons ((s.takeWhile p).reverse) c (rtlSpans t)
        (by intro x hx; exact hr x (by simpa using hx)) hc,
      List.reverse_reverse,
      ih t.length (by omega) t rfl]
    conv_rhs => rw [← hsplit, hd]

theorem rtlSpans_involutive (s : List Char) : rtlSpans (rtlSpans s) = s :=
  rtlSpans_involutive_aux s.length s rfl

theorem wrap_rtl_involutive_of_no_space (s : List Char) (hs : ∀ c ∈ s, c ≠ ' ') :
    wrap_rtl (wrap_rtl s) = s := by
  rw [wrap_rtl_eq_rtlSpans s hs]
  have hs2 : ∀ c ∈ rtlSpans s, c ≠ ' ' := by
    intro c hc
    rcases mem_spansGo s [] c hc with h | h
    · exact hs c h
    · simp at h
  rw [wrap_rtl_eq_rtlSpans _ hs2]
  exact rtlSpans_involutive s

/-- C7, counterexample: on the two-character string consisting of a space
followed by ALEF (U+0627) the shaper is not an involution — the first pass
turns " ALEF" into "ALEF ", carrying the run's leading space behind it,
and the second pass leaves "ALEF " unchanged, so the original string is
not restored. -/
theorem claim_C7_counterexample : wrap_rtl (wrap_rtl rtlProbe) ≠ rtlProbe := by
  decide

/-- C7, amended: applying the console RTL shaping function twice restores
the original string for every string that contains no space character
(spaces are the one thing the flush relocates: an RTL run's leading spaces
are moved behind the run and stay there). -/
theorem claim_C7 (s : List Char) (hs : ∀ c ∈ s, c ≠ ' ') :
    wrap_rtl (wrap_rtl s) = s :=
  wrap_rtl_involutive_of_no_space s hs

/-- C7, witness: the amended theorem applied to the space-free string
ALEF, `a`, BEH (U+0627, U+0061, U+0628). -/
theorem claim_C7_witness :
    (∀ c ∈ [Char.ofNat 0x0627, 'a', Char.ofNat 0x0628], c ≠ ' ') ∧
      wrap_rtl (wrap_rtl [Char.ofNat 0x0627, 'a', Char.ofNat 0x0628]) =
        [Char.ofNat 0x0627, 'a', Char.ofNat 0x0628] :=
  ⟨by decide, claim_C7 _ (by decide)⟩

/-! ## The traversal as `applyEff` of its pure effects -/

theorem applyEff_noEff (a : Args) (st : RunState) : applyEff a noEff st = st := by
  cases st with
  | mk stats out errs visits =>
    cases stats
    simp [applyEff, noEff]

theorem applyEff_eapp (a : Args) (E1 E2 : Effects) (st : RunState) :
    applyEff a (eapp E1 E2) st = applyEff a E2 (applyEff a E1 st) := by
  by_cases hcsv : a.csvOut = "" <;>
    simp [applyEff, eapp, hcsv, List.countP_append, List.foldl_append,
      List.map_append, Nat.add_assoc]

theorem applyEff_err (a : Args) (m : String) (st : RunState) :
    applyEff a ⟨[], [m], []⟩ st = { st with errs := st.errs ++ [m] } := by
  cases st with
  | mk stats out errs visits =>
    cases stats
    simp [applyEff]

theorem applyEff_depth (a : Args) (lv : Int) (st : RunState) :
    applyEff a ⟨[], [], [lv]⟩ st =
      { st with stats := { st.stats with maxDepth := max st.stats.maxDepth lv } } := by
  cases st with
  | mk stats out errs visits =>
    cases stats
    simp [applyEff]

theorem applyEff_single (a : Args) (level : Int) (indent relpath : String)
    (pInfo : Option (String × Bool)) (isLast : Bool) (e : FSNode) (st : RunState) :
    applyEff a ⟨[mkVisit level indent relpath pInfo isLast e], [], []⟩ st =
      (if e.isDir then
        { stats :=
            { maxDepth := st.stats.maxDepth,
              folders := st.stats.folders + 1,
              files := st.stats.files,
              csvRows := st.stats.csvRows ++
                (if a.csvOut = "" then []
                 else [rowOf (mkVisit level indent relpath pInfo isLast e)]) },
          out := st.out ++
            (if a.csvOut = "" then [lineOf a (mkVisit level indent relpath pInfo isLast e)]
             else []),
          errs := st.errs,
          visits := st.visits ++ [mkVisit level indent relpath pInfo isLast e] }
      else
        { stats :=
            { maxDepth := st.stats.maxDepth,
              folders := st.stats.folders,
              files := st.stats.files + 1,
              csvRows := st.stats.csvRows ++
                (if a.csvOut = "" then []
                 else [rowOf (mkVisit level indent relpath pInfo isLast e)]) },
          out := st.out ++
            (if a.csvOut = "" then [lineOf a (mkVisit level indent relpath pInfo isLast e)]
             else []),
          errs := st.errs,
          visits := st.visits ++ [mkVisit level indent relpath pInfo isLast e] }) := by
  by_cases hd : e.isDir <;>
    simp [applyEff, mkVisit, hd, List.countP_cons]

theorem printLoop_applyEff (a : Args) (f : Nat)
    (hrec : ∀ e path level indent relpath pInfo st,
      printTreeF f a e path level indent relpath pInfo st =
        applyEff a (specEffF f a e path level indent relpath pInfo) st) :
    ∀ (es : List FSNode) (path : String) (level : Int) (indent relpath : String)
      (pInfo : Option (String × Bool)) (st : RunState),
      printLoopGo (printTreeF f a) a path level indent relpath pInfo es st =
        applyEff a (specLoopGo (specEffF f a) a path level indent relpath pInfo es) st := by
  intro es
  induction es with
  | nil =>
    intro path level indent relpath pInfo st
    simp [printLoopGo, specLoopGo, applyEff_noEff]
  | cons e rest ih =>
    intro path level indent relpath pInfo st
    rw [show specLoopGo (specEffF f a) a path level indent relpath pInfo (e :: rest) =
        eapp ⟨[mkVisit level indent relpath pInfo rest.isEmpty e], [], []⟩
          (eapp (if e.isDir then
              specEffF f a e (path ++ "/" ++ e.name) (level + 1)
                (indent ++ (if rest.isEmpty then "    " else "|   "))
                (joinRel relpath e.name) (some (indent, rest.isEmpty))
            else noEff)
            (specLoopGo (specEffF f a) a path level indent relpath pInfo rest)) from rfl]
    rw [applyEff_eapp, applyEff_eapp]
    rw [show printLoopGo (printTreeF f a) a path level indent relpath pInfo (e :: rest) st =
        (let v := mkVisit level indent relpath pInfo rest.isEmpty e
         let st1 : RunState :=
           if a.csvOut = "" then
             { st with out := st.out ++ [lineOf a v], visits := st.visits ++ [v] }
           else
             { st with stats := { st.stats with csvRows := st.stats.csvRows ++ [rowOf v] },
                       visits := st.visits ++ [v] }
         let st2 : RunState :=
           if e.isDir then
             printTreeF f a e (path ++ "/" ++ e.name) (level + 1)
               (indent ++ (if rest.isEmpty then "    " else "|   "))
               (joinRel relpath e.name) (some (indent, rest.isEmpty))
               { st1 with stats := { st1.stats with folders := st1.stats.folders + 1 } }
           else
             { st1 with stats := { st1.stats with files := st1.stats.files + 1 } }
         printLoopGo (printTreeF f a) a path level indent relpath pInfo rest st2) from rfl]
    simp only []
    rw [ih]
    congr 1
    rw [applyEff_single]
    by_cases hd : e.isDir = true
    · rw [if_pos hd, if_pos hd, if_pos hd, hrec]
      congr 1
      by_cases hcsv : a.csvOut = "" <;> simp [hcsv]
    · rw [if_neg hd, if_neg hd, if_neg hd, applyEff_noEff]
      by_cases hcsv : a.csvOut = "" <;> simp [hcsv]

theorem printTreeF_applyEff (f : Nat) :
    ∀ (a : Args) (node : FSNode) (path : String) (level : Int)
      (indent relpath : String) (pInfo : Option (String × Bool)) (st : RunState),
      printTreeF f a node path level indent relpath pInfo st =
        applyEff a (specEffF f a node path level indent relpath pInfo) st := by
  induction f with
  | zero =>
    intro a node path level indent relpath pInfo st
    simp [printTreeF, specEffF, applyEff_noEff]
  | succ f ih =>
    intro a node path level indent relpath pInfo st
    by_cases hg : a.maxLevel > 0 ∧ level > a.maxLevel
    · rw [show printTreeF (f + 1) a node path level indent relpath pInfo st =
          if a.maxLevel > 0 ∧ level > a.maxLevel then st else
            (match node.childrenQ with
             | none => { st with errs := st.errs ++ [enumFailMsg path] }
             | some l =>
               let st1 := printLoopGo (printTreeF f a) a path level indent relpath pInfo
                 (listChildren a l) st
               { st1 with stats := { st1.stats with
                   maxDepth := max st1.stats.maxDepth level } }) from rfl,
        show specEffF (f + 1) a node path level indent relpath pInfo =
          if a.maxLevel > 0 ∧ level > a.maxLevel then noEff else
            (match node.childrenQ with
             | none => ⟨[], [enumFailMsg path], []⟩
             | some l =>
               eapp (specLoopGo (specEffF f a) a path level indent relpath pInfo
                 (listChildren a l)) ⟨[], [], [level]⟩) from rfl]
      rw [if_pos hg, if_pos hg, applyEff_noEff]
    · rw [show printTreeF (f + 1) a node path level indent relpath pInfo st =
          if a.maxLevel > 0 ∧ level > a.maxLevel then st else
            (match node.childrenQ with
             | none => { st with errs := st.errs ++ [enumFailMsg path] }
             | some l =>
               let st1 := printLoopGo (printTreeF f a) a path level indent relpath pInfo
                 (listChildren a l) st
               { st1 with stats := { st1.stats with
                   maxDepth := max st1.stats.maxDepth level } }) from rfl,
        show specEffF (f + 1) a node path level indent relpath pInfo =
          if a.maxLevel > 0 ∧ level > a.maxLevel then noEff else
            (match node.childrenQ with
             | none => ⟨[], [enumFailMsg path], []⟩
             | some l =>
               eapp (specLoopGo (specEffF f a) a path level indent relpath pInfo
                 (listChildren a l)) ⟨[], [], [level]⟩) from rfl]
      rw [if_neg hg, if_neg hg]
      cases hch : node.childrenQ with
      | none => rw [applyEff_err]
      | some l =>
        simp only []
        rw [applyEff_eapp, applyEff_depth,
          printLoop_applyEff a f (fun e p lv ind rp pi stx => ih a e p lv ind rp pi stx)]

theorem printTree_applyEff (a : Args) (node : FSNode) (path : String) (level : Int)
    (indent relpath : String) (pInfo : Option (String × Bool)) (st : RunState) :
    printTree a node path level indent relpath pInfo st =
      applyEff a (specEff a node path level indent relpath pInfo) st :=
  printTreeF_applyEff (nodeSize node) a node path level indent relpath pInfo st

/-! ## Traversal lemmas and the traversal claims -/

theorem countP_not_split (l : List Visit) :
    l.countP (fun v => v.isDir) + l.countP (fun v => !v.isDir) = l.length := by
  induction l with
  | nil => rfl
  | cons v r ih =>
    by_cases h : v.isDir <;> simp [List.countP_cons, h] <;> omega

theorem effArgs_csvOut (a : Args) : (effArgs a).csvOut = a.csvOut := by
  unfold effArgs; split <;> rfl

/-- C1: for every run, over any directory tree and any configuration,
`stats.folders + stats.files` equals the total number of non-root entries
emitted — rendered lines in render mode, rows in export mode; every
visited entry is counted in the ghost visit trace exactly once, and the
row collection receives exactly one row per visit if and only if export
mode is active (and the rendered output exactly one line per visit if and
only if it is not). -/
theorem claim_C1 (a : Args) (root : FSNode) :
    ((mainRun a root).state.stats.folders + (mainRun a root).state.stats.files =
      (mainRun a root).state.visits.length) ∧
    ((mainRun a root).state.out.length =
      if a.csvOut = "" then (mainRun a root).state.visits.length else 0) ∧
    ((mainRun a root).state.stats.csvRows.length =
      if a.csvOut = "" then 0 else (mainRun a root).state.visits.length) := by
  unfold mainRun
  simp only []
  rw [printTree_applyEff]
  by_cases h : a.csvOut = "" <;>
    simp [applyEff, initState, effArgs_csvOut, h, countP_not_split]

theorem nodeSize_pos (node : FSNode) : 1 ≤ nodeSize node := by
  cases node with
  | file n sz p => simp [nodeSize]
  | dir n p c => cases c <;> simp [nodeSize]

theorem printTreeF_succ_eq (f : Nat) (a : Args) (node : FSNode) (path : String)
    (level : Int) (indent relpath : String) (pInfo : Option (String × Bool)) (st : RunState) :
    printTreeF (f + 1) a node path level indent relpath pInfo st =
      if a.maxLevel > 0 ∧ level > a.maxLevel then st
      else
        (match node.childrenQ with
         | none => { st with errs := st.errs ++ [enumFailMsg path] }
         | some l =>
           let st1 := printLoopGo (printTreeF f a) a path level indent relpath pInfo
             (listChildren a l) st
           { st1 with stats := { st1.stats with
               maxDepth := max st1.stats.maxDepth level } }) := rfl

theorem specEffF_succ_eq (f : Nat) (a : Args) (node : FSNode) (path : String)
    (level : Int) (indent relpath : String) (pInfo : Option (String × Bool)) :
    specEffF (f + 1) a node path level indent relpath pInfo =
      if a.maxLevel > 0 ∧ level > a.maxLevel then noEff
      else
        (match node.childrenQ with
         | none => ⟨[], [enumFailMsg path], []⟩
         | some l =>
           eapp (specLoopGo (specEffF f a) a path level indent relpath pInfo
             (listChildren a l)) ⟨[], [], [level]⟩) := rfl

/-- C8: a directory whose child enumeration fails (modelled by
`childrenQ = none`) and that is not pruned by the depth limit changes the
run state in exactly one way — one report is appended to the error
channel; no entry from it is rendered, counted, or exported, its
`maxDepth` update is skipped, and, the traversal being a total function
composed sequentially over siblings and ancestors, the rest of the run
continues unchanged. -/
theorem claim_C8 (a : Args) (node : FSNode) (path : String) (level : Int)
    (indent relpath : String) (pInfo : Option (String × Bool)) (st : RunState)
    (hfail : node.childrenQ = none)
    (hnp : ¬(a.maxLevel > 0 ∧ level > a.maxLevel)) :
    printTree a node path level indent relpath pInfo st =
      { st with errs := st.errs ++ [enumFailMsg path] } := by
  unfold printTree
  obtain ⟨f, hf⟩ : ∃ f, nodeSize node = f + 1 :=
    ⟨nodeSize node - 1, by have := nodeSize_pos node; omega⟩
  rw [hf, printTreeF_succ_eq, if_neg hnp, hfail]

theorem init_le_foldl_max (ds : List Int) : ∀ (init : Int), init ≤ ds.foldl max init := by
  induction ds with
  | nil => intro init; simp
  | cons d rest ih =>
    intro init
    calc init ≤ max init d := le_max_left _ _
      _ ≤ rest.foldl max (max init d) := ih _

theorem le_foldl_max (ds : List Int) : ∀ (init x : Int), x ∈ ds → x ≤ ds.foldl max init := by
  induction ds with
  | nil => intro init x hx; simp at hx
  | cons d rest ih =>
    intro init x hx
    rcases List.mem_cons.mp hx with h | h
    · subst h
      calc x ≤ max init x := le_max_right _ _
        _ ≤ rest.foldl max (max init x) := init_le_foldl_max _ _
    · exact ih (max init d) x h

theorem keepEntry_effArgs (a : Args) : keepEntry (effArgs a) = keepEntry a := by
  unfold effArgs
  split
  · rfl
  · funext e; rfl

theorem root_guard_false (a : Args) : ¬(a.maxLevel > 0 ∧ (1 : Int) > a.maxLevel) := by
  rintro ⟨h1, h2⟩; omega

/-- C10: (a) after processing any directory whose enumeration succeeds
and that is not pruned by the depth limit, `stats.maxDepth` is at least
that directory\'s level, even with zero surviving children; (b) a run over
a root directory whose children are all filtered out (or absent) reports
`maxDepth = 1`, `folders = 0`, `files = 0`, and, in render mode, the
summary line "The tree counts 1 layers, 0 folders, 0 files."; (c) a
directory whose enumeration fails skips the `maxDepth` update. -/
theorem claim_C10 (a : Args) (root node : FSNode) (path : String) (level : Int)
    (indent relpath : String) (pInfo : Option (String × Bool)) (st : RunState)
    (l rl : List FSNode) :
    (node.childrenQ = some l → ¬(a.maxLevel > 0 ∧ level > a.maxLevel) →
      level ≤ (printTree a node path level indent relpath pInfo st).stats.maxDepth) ∧
    (root.childrenQ = some rl → rl.filter (keepEntry a) = [] →
      (mainRun a root).state.stats.maxDepth = 1 ∧
      (mainRun a root).state.stats.folders = 0 ∧
      (mainRun a root).state.stats.files = 0 ∧
      (a.csvOut = "" →
        (mainRun a root).summary =
          some "The tree counts 1 layers, 0 folders, 0 files.")) ∧
    (node.childrenQ = none →
      (printTree a node path level indent relpath pInfo st).stats.maxDepth =
        st.stats.maxDepth) := by
  refine ⟨?_, ?_, ?_⟩
  · intro hsome hnp
    rw [printTree_applyEff]
    obtain ⟨f, hf⟩ : ∃ f, nodeSize node = f + 1 :=
      ⟨nodeSize node - 1, by have := nodeSize_pos node; omega⟩
    unfold specEff
    rw [hf, specEffF_succ_eq, if_neg hnp, hsome]
    simp only [applyEff, eapp]
    apply le_foldl_max
    simp
  · intro hsome hfil
    have hlc : listChildren (effArgs a) rl = [] := by
      unfold listChildren
      rw [keepEntry_effArgs, hfil]
      rfl
    obtain ⟨f, hf⟩ : ∃ f, nodeSize root = f + 1 :=
      ⟨nodeSize root - 1, by have := nodeSize_pos root; omega⟩
    have hE : specEff (effArgs a) root ((effArgs a).folder) 1 "" "" none =
        (⟨[], [], [1]⟩ : Effects) := by
      unfold specEff
      rw [hf, specEffF_succ_eq, if_neg (root_guard_false (effArgs a)), hsome]
      show eapp (specLoopGo (specEffF f (effArgs a)) (effArgs a)
        ((effArgs a).folder) 1 "" "" none (listChildren (effArgs a) rl))
          ⟨[], [], [1]⟩ = _
      rw [hlc]
      simp [specLoopGo, eapp, noEff]
    unfold mainRun
    simp only []
    rw [printTree_applyEff, hE]
    refine ⟨by simp [applyEff, initState], by simp [applyEff, initState],
      by simp [applyEff, initState], ?_⟩
    intro hcsv
    rw [if_pos (by rw [effArgs_csvOut]; exact hcsv)]
    congr 1
    have hst : (applyEff (effArgs a) ⟨[], [], [1]⟩ initState).stats =
        { maxDepth := 1, folders := 0, files := 0, csvRows := [] } := by
      simp [applyEff, initState]
    rw [hst]
    decide
  · intro hnone
    rw [printTree_applyEff]
    unfold specEff
    obtain ⟨f, hf⟩ : ∃ f, nodeSize node = f + 1 :=
      ⟨nodeSize node - 1, by have := nodeSize_pos node; omega⟩
    rw [hf, specEffF_succ_eq]
    by_cases hg : a.maxLevel > 0 ∧ level > a.maxLevel
    · rw [if_pos hg]; simp [applyEff, noEff]
    · rw [if_neg hg, hnone]; simp [applyEff]

theorem mem_insertByName {x e : FSNode} : ∀ {l : List FSNode},
    x ∈ insertByName e l → x = e ∨ x ∈ l := by
  intro l
  induction l with
  | nil => intro h; simp [insertByName] at h; exact Or.inl h
  | cons y ys ih =>
    intro h
    unfold insertByName at h
    by_cases hle : nameLe e y
    · rw [if_pos hle] at h
      rcases List.mem_cons.mp h with h1 | h1
      · exact Or.inl h1
      · exact Or.inr h1
    · rw [if_neg hle] at h
      rcases List.mem_cons.mp h with h1 | h1
      · exact Or.inr (by simp [h1])
      · rcases ih h1 with h2 | h2
        · exact Or.inl h2
        · exact Or.inr (by simp [h2])

theorem mem_sortByName {x : FSNode} : ∀ {l : List FSNode}, x ∈ sortByName l → x ∈ l := by
  intro l
  induction l with
  | nil => intro h; simp [sortByName] at h
  | cons y ys ih =>
    intro h
    unfold sortByName at h
    rcases mem_insertByName h with h1 | h1
    · simp [h1]
    · exact List.mem_cons_of_mem _ (ih h1)

theorem mem_listChildren {a : Args} {x : FSNode} {l : List FSNode}
    (h : x ∈ listChildren a l) : x ∈ l :=
  List.mem_of_mem_filter (mem_sortByName h)

theorem nodeSize_le_listSize_of_mem {e : FSNode} : ∀ {l : List FSNode},
    e ∈ l → nodeSize e ≤ listSize l := by
  intro l
  induction l with
  | nil => intro h; simp at h
  | cons y ys ih =>
    intro h
    rcases List.mem_cons.mp h with h1 | h1
    · subst h1; simp [listSize]
    · have := ih h1
      simp [listSize]
      omega

theorem specLoopGo_congr {r1 r2 : FSNode → String → Int → String → String →
      Option (String × Bool) → Effects} (a1 a2 : Args) (path : String) (level : Int)
    (indent relpath : String) (pInfo : Option (String × Bool)) :
    ∀ (es : List FSNode),
      (∀ e ∈ es, ∀ p lv ind rp pi, r1 e p lv ind rp pi = r2 e p lv ind rp pi) →
      specLoopGo r1 a1 path level indent relpath pInfo es =
        specLoopGo r2 a2 path level indent relpath pInfo es := by
  intro es
  induction es with
  | nil => intro _; rfl
  | cons e rest ih =>
    intro h
    simp only [specLoopGo]
    rw [ih (fun x hx => h x (by simp [hx])), h e (by simp)]

theorem listSize_children {node : FSNode} {l : List FSNode}
    (h : node.childrenQ = some l) : listSize l < nodeSize node := by
  cases node with
  | file n sz p => simp [FSNode.childrenQ] at h
  | dir n p c =>
    cases c with
    | none => simp [FSNode.childrenQ] at h
    | some l' =>
      simp [FSNode.childrenQ] at h
      subst h
      simp [nodeSize]

theorem specEffF_fuel (f : Nat) : ∀ (g : Nat) (a : Args) (node : FSNode)
    (path : String) (level : Int) (indent relpath : String)
    (pInfo : Option (String × Bool)),
    nodeSize node ≤ f → nodeSize node ≤ g →
    specEffF f a node path level indent relpath pInfo =
      specEffF g a node path level indent relpath pInfo := by
  induction f with
  | zero =>
    intro g a node path level indent relpath pInfo hf _
    have := nodeSize_pos node; omega
  | succ f ih =>
    intro g a node path level indent relpath pInfo hf hg
    obtain ⟨g', hg'⟩ : ∃ g', g = g' + 1 :=
      ⟨g - 1, by have := nodeSize_pos node; omega⟩
    subst hg'
    rw [specEffF_succ_eq, specEffF_succ_eq]
    by_cases hgu : a.maxLevel > 0 ∧ level > a.maxLevel
    · rw [if_pos hgu, if_pos hgu]
    · rw [if_neg hgu, if_neg hgu]
      cases hch : node.childrenQ with
      | none => rfl
      | some l =>
        simp only []
        have hl := listSize_children hch
        rw [specLoopGo_congr a a path level indent relpath pInfo (listChildren a l)
          (fun e he p lv ind rp pi => ih g' a e p lv ind rp pi
            (by have h1 := nodeSize_le_listSize_of_mem (mem_listChildren he); omega)
            (by have h1 := nodeSize_le_listSize_of_mem (mem_listChildren he); omega))]

theorem printTreeF_fuel (f : Nat) (a : Args) (node : FSNode) (path : String)
    (level : Int) (indent relpath : String) (pInfo : Option (String × Bool))
    (st : RunState) (hf : nodeSize node ≤ f) :
    printTreeF f a node path level indent relpath pInfo st =
      printTree a node path level indent relpath pInfo st := by
  rw [printTreeF_applyEff, printTree_applyEff]
  unfold specEff
  rw [specEffF_fuel f (nodeSize node) a node path level indent relpath pInfo hf le_rfl]

theorem specEffF_branch_indent (f : Nat) :
    ∀ (a : Args) (node : FSNode) (path : String) (level : Int)
      (indent relpath : String) (pInfo : Option (String × Bool)),
      pInfoOk pInfo indent →
      ∀ v ∈ (specEffF f a node path level indent relpath pInfo).visits,
        (v.branch = if v.isLast then "`-- " else "|-- ") ∧
        pInfoOk v.parentInfo v.indent := by
  induction f with
  | zero =>
    intro a node path level indent relpath pInfo _ v hv
    simp [specEffF, noEff] at hv
  | succ f ih =>
    intro a node path level indent relpath pInfo hok v hv
    rw [specEffF_succ_eq] at hv
    by_cases hg : a.maxLevel > 0 ∧ level > a.maxLevel
    · rw [if_pos hg] at hv; simp [noEff] at hv
    · rw [if_neg hg] at hv
      cases hch : node.childrenQ with
      | none => rw [hch] at hv; simp at hv
      | some l =>
        rw [hch] at hv
        simp only [eapp, List.append_nil] at hv
        revert hv
        have hloop : ∀ (es : List FSNode) (indent relpath : String)
            (pInfo : Option (String × Bool)), pInfoOk pInfo indent →
            ∀ v ∈ (specLoopGo (specEffF f a) a path level indent relpath pInfo es).visits,
              (v.branch = if v.isLast then "`-- " else "|-- ") ∧
              pInfoOk v.parentInfo v.indent := by
          intro es
          induction es with
          | nil => intro indent relpath pInfo _ v hv; simp [specLoopGo, noEff] at hv
          | cons e rest ihr =>
            intro indent relpath pInfo hok v hv
            simp only [specLoopGo, eapp, List.append_nil, List.nil_append,
              List.cons_append] at hv
            rcases List.mem_cons.mp hv with h1 | h1
            · subst h1
              refine ⟨by simp [mkVisit], ?_⟩
              show pInfoOk pInfo indent
              exact hok
            · rcases List.mem_append.mp h1 with h2 | h2
              · by_cases hd : e.isDir = true
                · rw [if_pos hd] at h2
                  exact ih a e _ _ _ _ _ (by simp [pInfoOk]) v h2
                · rw [if_neg hd] at h2; simp [noEff] at h2
              · exact ihr indent relpath pInfo hok v h2
        exact fun hv => hloop (listChildren a l) indent relpath pInfo hok v hv

/-- C4, amended: for every rendered child entry, the tree-drawing glyph
is "`-- " when the entry is the last of its siblings and "|-- "
otherwise (the source draws ASCII art, not the Unicode box-drawing
glyphs the claim names), and the indentation passed down to a child
directory\'s recursion is the parent\'s indentation extended by four
spaces if the parent was the last of its siblings, else by a vertical
bar followed by three spaces (`pInfoOk`). -/
theorem claim_C4 (a : Args) (root : FSNode) :
    ∀ v ∈ (mainRun a root).state.visits,
      (v.branch = if v.isLast then "`-- " else "|-- ") ∧
      pInfoOk v.parentInfo v.indent := by
  intro v hv
  unfold mainRun at hv
  simp only [] at hv
  rw [printTree_applyEff] at hv
  simp only [applyEff, initState, List.nil_append] at hv
  exact specEffF_branch_indent (nodeSize root) (effArgs a) root _ 1 "" "" none
    (by simp [pInfoOk]) v hv

theorem specEffF_level_lb (f : Nat) :
    ∀ (a : Args) (node : FSNode) (path : String) (level : Int)
      (indent relpath : String) (pInfo : Option (String × Bool)),
      ∀ v ∈ (specEffF f a node path level indent relpath pInfo).visits, level ≤ v.level := by
  induction f with
  | zero =>
    intro a node path level indent relpath pInfo v hv
    simp [specEffF, noEff] at hv
  | succ f ih =>
    intro a node path level indent relpath pInfo v hv
    rw [specEffF_succ_eq] at hv
    by_cases hg : a.maxLevel > 0 ∧ level > a.maxLevel
    · rw [if_pos hg] at hv; simp [noEff] at hv
    · rw [if_neg hg] at hv
      cases hch : node.childrenQ with
      | none => rw [hch] at hv; simp at hv
      | some l =>
        rw [hch] at hv
        simp only [eapp, List.append_nil] at hv
        revert hv
        have hloop : ∀ (es : List FSNode) (indent relpath : String)
            (pInfo : Option (String × Bool)),
            ∀ v ∈ (specLoopGo (specEffF f a) a path level indent relpath pInfo es).visits,
              level ≤ v.level := by
          intro es
          induction es with
          | nil => intro indent relpath pInfo v hv; simp [specLoopGo, noEff] at hv
          | cons e rest ihr =>
            intro indent relpath pInfo v hv
            simp only [specLoopGo, eapp, List.append_nil, List.nil_append,
              List.cons_append] at hv
            rcases List.mem_cons.mp hv with h1 | h1
            · subst h1; simp [mkVisit]
            · rcases List.mem_append.mp h1 with h2 | h2
              · by_cases hd : e.isDir = true
                · rw [if_pos hd] at h2
                  have := ih a e _ _ _ _ _ v h2
                  omega
                · rw [if_neg hd] at h2; simp [noEff] at h2
              · exact ihr indent relpath pInfo v h2
        exact fun hv => hloop (listChildren a l) indent relpath pInfo v hv

theorem specLoopGo_level_lb (f : Nat) (a : Args) (path : String) (level : Int) :
    ∀ (es : List FSNode) (indent relpath : String) (pInfo : Option (String × Bool)),
      ∀ v ∈ (specLoopGo (specEffF f a) a path level indent relpath pInfo es).visits,
        level ≤ v.level := by
  intro es
  induction es with
  | nil => intro indent relpath pInfo v hv; simp [specLoopGo, noEff] at hv
  | cons e rest ihr =>
    intro indent relpath pInfo v hv
    simp only [specLoopGo, eapp, List.append_nil, List.nil_append,
      List.cons_append] at hv
    rcases List.mem_cons.mp hv with h1 | h1
    · subst h1; simp [mkVisit]
    · rcases List.mem_append.mp h1 with h2 | h2
      · by_cases hd : e.isDir = true
        · rw [if_pos hd] at h2
          have := specEffF_level_lb f a e _ _ _ _ _ v h2
          omega
        · rw [if_neg hd] at h2; simp [noEff] at h2
      · exact ihr indent relpath pInfo v h2

theorem keepEntry_maxLevel (a : Args) (x : Int) :
    keepEntry { a with maxLevel := x } = keepEntry a := rfl

theorem specEffF_maxLevel_filter (f : Nat) :
    ∀ (a : Args) (k : Int), 0 < k →
    ∀ (node : FSNode) (path : String) (level : Int) (indent relpath : String)
      (pInfo : Option (String × Bool)),
      (specEffF f { a with maxLevel := k } node path level indent relpath pInfo).visits =
        (specEffF f { a with maxLevel := 0 } node path level indent relpath pInfo).visits.filter
          (fun v => decide (v.level ≤ k)) := by
  induction f with
  | zero => intro a k hk node path level indent relpath pInfo; rfl
  | succ f ih =>
    intro a k hk node path level indent relpath pInfo
    rw [specEffF_succ_eq, specEffF_succ_eq]
    have hg0 : ¬(({ a with maxLevel := 0 } : Args).maxLevel > 0 ∧
        level > ({ a with maxLevel := 0 } : Args).maxLevel) := by
      rintro ⟨h1, _⟩; simp at h1
    rw [if_neg hg0]
    by_cases hlv : level > k
    · have hgk : ({ a with maxLevel := k } : Args).maxLevel > 0 ∧
          level > ({ a with maxLevel := k } : Args).maxLevel := ⟨hk, hlv⟩
      rw [if_pos hgk]
      show ([] : List Visit) = _
      symm
      rw [List.filter_eq_nil_iff]
      intro v hv
      cases hch : node.childrenQ with
      | none => rw [hch] at hv; simp at hv
      | some l =>
        rw [hch] at hv
        simp only [eapp, List.append_nil] at hv
        have hlb := specLoopGo_level_lb f { a with maxLevel := 0 } path level
          (listChildren { a with maxLevel := 0 } l) indent relpath pInfo v hv
        simp
        omega
    · have hgk : ¬(({ a with maxLevel := k } : Args).maxLevel > 0 ∧
          level > ({ a with maxLevel := k } : Args).maxLevel) := by
        rintro ⟨_, h2⟩; exact hlv h2
      rw [if_neg hgk]
      cases hch : node.childrenQ with
      | none => rfl
      | some l =>
        show (eapp (specLoopGo (specEffF f { a with maxLevel := k })
            { a with maxLevel := k } path level indent relpath pInfo
            (listChildren { a with maxLevel := k } l)) ⟨[], [], [level]⟩).visits =
          List.filter (fun v => decide (v.level ≤ k))
            (eapp (specLoopGo (specEffF f { a with maxLevel := 0 })
              { a with maxLevel := 0 } path level indent relpath pInfo
              (listChildren { a with maxLevel := 0 } l)) ⟨[], [], [level]⟩).visits
        simp only [eapp, List.append_nil]
        have hlc : listChildren { a with maxLevel := k } l =
            listChildren { a with maxLevel := 0 } l := rfl
        rw [hlc]
        have hloop : ∀ (es : List FSNode) (indent relpath : String)
            (pInfo : Option (String × Bool)),
            (specLoopGo (specEffF f { a with maxLevel := k }) { a with maxLevel := k }
              path level indent relpath pInfo es).visits =
            ((specLoopGo (specEffF f { a with maxLevel := 0 }) { a with maxLevel := 0 }
              path level indent relpath pInfo es).visits.filter
                (fun v => decide (v.level ≤ k))) := by
          intro es
          induction es with
          | nil => intro indent relpath pInfo; rfl
          | cons e rest ihr =>
            intro indent relpath pInfo
            simp only [specLoopGo, eapp, List.append_nil, List.nil_append,
              List.cons_append, List.filter_cons, List.filter_append]
            have hv0 : (decide ((mkVisit level indent relpath pInfo rest.isEmpty e).level ≤ k)) = true := by
              simp [mkVisit]; omega
            rw [hv0]
            simp only [if_true]
            congr 1
            congr 1
            · by_cases hd : e.isDir = true
              · rw [if_pos hd, if_pos hd]
                exact ih a k hk e _ _ _ _ _
              · rw [if_neg hd, if_neg hd]; rfl
            · exact ihr indent relpath pInfo
        exact hloop (listChildren { a with maxLevel := 0 } l) indent relpath pInfo

theorem specEffF_maxLevel_nonpos (f : Nat) :
    ∀ (a : Args) (m : Int), m ≤ 0 →
    ∀ (node : FSNode) (path : String) (level : Int) (indent relpath : String)
      (pInfo : Option (String × Bool)),
      specEffF f { a with maxLevel := m } node path level indent relpath pInfo =
        specEffF f { a with maxLevel := 0 } node path level indent relpath pInfo := by
  induction f with
  | zero => intro a m hm node path level indent relpath pInfo; rfl
  | succ f ih =>
    intro a m hm node path level indent relpath pInfo
    rw [specEffF_succ_eq, specEffF_succ_eq]
    have hgm : ¬(({ a with maxLevel := m } : Args).maxLevel > 0 ∧
        level > ({ a with maxLevel := m } : Args).maxLevel) := by
      rintro ⟨h1, _⟩; simp at h1; omega
    have hg0 : ¬(({ a with maxLevel := 0 } : Args).maxLevel > 0 ∧
        level > ({ a with maxLevel := 0 } : Args).maxLevel) := by
      rintro ⟨h1, _⟩; simp at h1
    rw [if_neg hgm, if_neg hg0]
    cases hch : node.childrenQ with
    | none => rfl
    | some l =>
      show eapp (specLoopGo (specEffF f { a with maxLevel := m })
          { a with maxLevel := m } path level indent relpath pInfo
          (listChildren { a with maxLevel := 0 } l)) ⟨[], [], [level]⟩ =
        eapp (specLoopGo (specEffF f { a with maxLevel := 0 })
          { a with maxLevel := 0 } path level indent relpath pInfo
          (listChildren { a with maxLevel := 0 } l)) ⟨[], [], [level]⟩
      congr 1
      exact specLoopGo_congr _ _ path level indent relpath pInfo _
        (fun e he p lv ind rp pi => ih a m hm e p lv ind rp pi)

theorem effArgs_maxLevel (a : Args) (x : Int) :
    effArgs { a with maxLevel := x } = { effArgs a with maxLevel := x } := by
  unfold effArgs
  by_cases hc : a.console = true
  · simp [hc]
  · simp [hc]



theorem specEffF_preorder (f : Nat) :
    ∀ (a : Args) (node : FSNode) (path : String) (level : Int)
      (indent relpath : String) (pInfo : Option (String × Bool)),
      (specEffF f a node path level indent relpath pInfo).visits.map
          (fun v => (v.level, v.name)) =
        preorderF f a node level := by
  induction f with
  | zero => intro a node path level indent relpath pInfo; rfl
  | succ f ih =>
    intro a node path level indent relpath pInfo
    rw [specEffF_succ_eq]
    by_cases hg : a.maxLevel > 0 ∧ level > a.maxLevel
    · rw [if_pos hg]
      show ([] : List (Int × String)) = preorderF (f + 1) a node level
      unfold preorderF
      rw [if_pos hg]
    · rw [if_neg hg]
      show (match node.childrenQ with
         | none => (⟨[], [enumFailMsg path], []⟩ : Effects)
         | some l =>
           eapp (specLoopGo (specEffF f a) a path level indent relpath pInfo
             (listChildren a l)) ⟨[], [], [level]⟩).visits.map
          (fun (v : Visit) => (v.level, v.name)) = preorderF (f + 1) a node level
      unfold preorderF
      rw [if_neg hg]
      cases hch : node.childrenQ with
      | none => rfl
      | some l =>
        show (eapp (specLoopGo (specEffF f a) a path level indent relpath pInfo
            (listChildren a l)) ⟨[], [], [level]⟩).visits.map
              (fun (v : Visit) => (v.level, v.name)) =
          preLoopGo (preorderF f a) level (listChildren a l)
        simp only [eapp, List.append_nil]
        have hloop : ∀ (es : List FSNode) (indent relpath : String)
            (pInfo : Option (String × Bool)),
            (specLoopGo (specEffF f a) a path level indent relpath pInfo es).visits.map
                (fun v => (v.level, v.name)) =
              preLoopGo (preorderF f a) level es := by
          intro es
          induction es with
          | nil => intro indent relpath pInfo; rfl
          | cons e rest ihr =>
            intro indent relpath pInfo
            simp only [specLoopGo, preLoopGo, eapp, List.append_nil, List.nil_append,
              List.cons_append, List.map_cons, List.map_append]
            congr 1
            congr 1
            · by_cases hd : e.isDir = true
              · rw [if_pos hd, if_pos hd]
                exact ih a e _ _ _ _ _
              · rw [if_neg hd, if_neg hd]; rfl
            · exact ihr indent relpath pInfo
        exact hloop (listChildren a l) indent relpath pInfo

/-- C2: with `maxLevel = k > 0` the visit trace of a run is exactly the
unlimited run\'s trace filtered to levels at most `k` — so no entry at
recursion level greater than `k` is visited (and hence none is rendered,
counted, or exported, each of those being one-per-visit), while
already-visited shallower levels are unaffected; any run with
`maxLevel ≤ 0` (including a negative, malformed depth) is identical to
the unlimited `maxLevel = 0` run; and the unlimited run visits the entire
reachable (surviving) tree — its trace is the full pre-order listing. -/
theorem claim_C2 (a : Args) (root : FSNode) (k m : Int) :
    (0 < k →
      (mainRun { a with maxLevel := k } root).state.visits =
        ((mainRun { a with maxLevel := 0 } root).state.visits.filter
          (fun v => decide (v.level ≤ k))) ∧
      (∀ v ∈ (mainRun { a with maxLevel := k } root).state.visits, v.level ≤ k)) ∧
    (m ≤ 0 →
      mainRun { a with maxLevel := m } root = mainRun { a with maxLevel := 0 } root) ∧
    ((mainRun { a with maxLevel := 0 } root).state.visits.map (fun v => (v.level, v.name)) =
      preorderSpec { effArgs a with maxLevel := 0 } root 1) := by
  refine ⟨?_, ?_, ?_⟩
  · intro hk
    have hfil : (mainRun { a with maxLevel := k } root).state.visits =
        ((mainRun { a with maxLevel := 0 } root).state.visits.filter
          (fun v => decide (v.level ≤ k))) := by
      unfold mainRun
      simp only []
      rw [printTree_applyEff, printTree_applyEff]
      simp only [effArgs_maxLevel]
      simp only [applyEff, initState, List.nil_append]
      unfold specEff
      have hfld : ({ effArgs a with maxLevel := k } : Args).folder =
          ({ effArgs a with maxLevel := 0 } : Args).folder := rfl
      rw [hfld]
      exact specEffF_maxLevel_filter (nodeSize root) (effArgs a) k hk root _ 1 "" "" none
    refine ⟨hfil, ?_⟩
    intro v hv
    rw [hfil] at hv
    have := List.of_mem_filter hv
    simpa using this
  · intro hm
    unfold mainRun
    simp only []
    rw [printTree_applyEff, printTree_applyEff]
    simp only [effArgs_maxLevel]
    unfold specEff
    have hfld : ({ effArgs a with maxLevel := m } : Args).folder =
        ({ effArgs a with maxLevel := 0 } : Args).folder := rfl
    rw [hfld]
    rw [specEffF_maxLevel_nonpos (nodeSize root) (effArgs a) m hm root
      (({ effArgs a with maxLevel := 0 } : Args).folder) 1 "" "" none]
    exact rfl
  · unfold mainRun
    simp only []
    rw [printTree_applyEff]
    simp only [effArgs_maxLevel]
    simp only [applyEff, initState, List.nil_append]
    exact specEffF_preorder (nodeSize root) { effArgs a with maxLevel := 0 } root _ 1 "" "" none

theorem charsLe_total : ∀ (as bs : List Char),
    charsLe as bs = true ∨ charsLe bs as = true := by
  intro as
  induction as with
  | nil => intro bs; exact Or.inl rfl
  | cons a as' ih =>
    intro bs
    cases bs with
    | nil => exact Or.inr rfl
    | cons b bs' =>
      by_cases hab : a = b
      · subst hab
        rcases ih bs' with h | h
        · exact Or.inl (by simp [charsLe, h])
        · exact Or.inr (by simp [charsLe, h])
      · rcases lt_trichotomy a b with h | h | h
        · exact Or.inl (by simp [charsLe, hab, h])
        · exact absurd h hab
        · exact Or.inr (by simp [charsLe, Ne.symm hab, h])

theorem charsLe_trans : ∀ (as bs cs : List Char),
    charsLe as bs = true → charsLe bs cs = true → charsLe as cs = true := by
  intro as
  induction as with
  | nil => intro bs cs _ _; rfl
  | cons a as' ih =>
    intro bs cs h1 h2
    cases bs with
    | nil => simp [charsLe] at h1
    | cons b bs' =>
      cases cs with
      | nil => simp [charsLe] at h2
      | cons c cs' =>
        by_cases hab : a = b
        · subst hab
          by_cases hbc : a = c
          · subst hbc
            simp only [charsLe, if_pos rfl] at h1 h2 ⊢
            exact ih bs' cs' h1 h2
          · simp only [charsLe, if_pos rfl] at h1
            simp only [charsLe, if_neg hbc] at h2 ⊢
            exact h2
        · simp only [charsLe, if_neg hab] at h1
          by_cases hbc : b = c
          · subst hbc
            simp only [charsLe, if_neg hab]
            exact h1
          · simp only [charsLe, if_neg hbc] at h2
            have hac : a < c := lt_trans (of_decide_eq_true h1) (of_decide_eq_true h2)
            have hne : a ≠ c := ne_of_lt hac
            simp [charsLe, hne, hac]

theorem nameLe_total (x y : FSNode) : nameLe x y = true ∨ nameLe y x = true :=
  charsLe_total x.name.toList y.name.toList

theorem nameLe_trans {x y z : FSNode} (h1 : nameLe x y = true) (h2 : nameLe y z = true) :
    nameLe x z = true :=
  charsLe_trans x.name.toList y.name.toList z.name.toList h1 h2

theorem insertByName_sorted (e : FSNode) : ∀ (l : List FSNode),
    List.Pairwise (fun x y => nameLe x y = true) l →
    List.Pairwise (fun x y => nameLe x y = true) (insertByName e l) := by
  intro l
  induction l with
  | nil => intro _; simp [insertByName]
  | cons y ys ih =>
    intro hp
    rcases List.pairwise_cons.mp hp with ⟨hy, hys⟩
    unfold insertByName
    by_cases hle : nameLe e y = true
    · rw [if_pos hle]
      refine List.pairwise_cons.mpr ⟨?_, hp⟩
      intro z hz
      rcases List.mem_cons.mp hz with h | h
      · subst h; exact hle
      · exact nameLe_trans hle (hy z h)
    · rw [if_neg hle]
      refine List.pairwise_cons.mpr ⟨?_, ih hys⟩
      intro z hz
      rcases mem_insertByName hz with h | h
      · subst h
        rcases nameLe_total y z with h2 | h2
        · exact h2
        · exact absurd h2 hle
      · exact hy z h

theorem sortByName_sorted : ∀ (l : List FSNode),
    List.Pairwise (fun x y => nameLe x y = true) (sortByName l) := by
  intro l
  induction l with
  | nil => simp [sortByName]
  | cons e r ih => exact insertByName_sorted e (sortByName r) ih

/-- C5: the visit trace of every run is exactly the specification\'s
deterministic pre-order listing (`preorderSpec`): surviving children of
each directory in code-point lexicographic filename order, each child\'s
whole subtree before the next sibling; the rendered lines (render mode)
and the exported rows (export mode) are exactly the per-visit images of
that trace, and every processed child list is sorted by `nameLe`. -/
theorem claim_C5 (a : Args) (root : FSNode) :
    ((mainRun a root).state.visits.map (fun v => (v.level, v.name)) =
      preorderSpec (effArgs a) root 1) ∧
    (a.csvOut = "" →
      (mainRun a root).state.out =
        (mainRun a root).state.visits.map (lineOf (effArgs a))) ∧
    (a.csvOut ≠ "" →
      (mainRun a root).state.stats.csvRows =
        (mainRun a root).state.visits.map rowOf) ∧
    (∀ l, List.Pairwise (fun x y => nameLe x y = true) (listChildren a l)) := by
  refine ⟨?_, ?_, ?_, ?_⟩
  · unfold mainRun
    simp only []
    rw [printTree_applyEff]
    simp only [applyEff, initState, List.nil_append]
    exact specEffF_preorder (nodeSize root) (effArgs a) root _ 1 "" "" none
  · intro hcsv
    have hcsv2 : (effArgs a).csvOut = "" := by rw [effArgs_csvOut]; exact hcsv
    unfold mainRun
    simp only []
    rw [printTree_applyEff]
    simp [applyEff, initState, hcsv2]
  · intro hcsv
    have hcsv2 : ¬(effArgs a).csvOut = "" := by rw [effArgs_csvOut]; exact hcsv
    unfold mainRun
    simp only []
    rw [printTree_applyEff]
    simp [applyEff, initState, hcsv2]
  · intro l
    exact sortByName_sorted _

theorem listWF_mem : ∀ {l : List FSNode}, listWF l = true → ∀ e ∈ l, nodeWF e = true := by
  intro l
  induction l with
  | nil => intro _ e he; simp at he
  | cons y ys ih =>
    intro h e he
    rw [show listWF (y :: ys) = (nodeWF y && listWF ys) from rfl] at h
    rcases List.mem_cons.mp he with h1 | h1
    · subst h1; exact (Bool.and_eq_true_iff.mp h).1
    · exact ih (Bool.and_eq_true_iff.mp h).2 e h1

theorem nodeWF_name {e : FSNode} (h : nodeWF e = true) :
    e.name ≠ "" ∧ e.name.toList.head? ≠ some '/' := by
  cases e with
  | file n sz p =>
    simp only [nodeWF, Bool.and_eq_true_iff, decide_eq_true_eq] at h
    exact ⟨h.1, by simpa using h.2⟩
  | dir n p c =>
    cases c with
    | none =>
      simp only [nodeWF, Bool.and_eq_true_iff, decide_eq_true_eq] at h
      exact ⟨h.1, by simpa using h.2⟩
    | some l =>
      simp only [nodeWF, Bool.and_eq_true_iff, decide_eq_true_eq] at h
      exact ⟨h.1.1, by simpa using h.1.2⟩

theorem nodeWF_children {node : FSNode} {l : List FSNode}
    (hch : node.childrenQ = some l) (h : nodeWF node = true) : listWF l = true := by
  cases node with
  | file n sz p => simp [FSNode.childrenQ] at hch
  | dir n p c =>
    cases c with
    | none => simp [FSNode.childrenQ] at hch
    | some l' =>
      simp only [FSNode.childrenQ, Option.some.injEq] at hch
      subst hch
      simp only [nodeWF, Bool.and_eq_true_iff] at h
      exact h.2

theorem string_ne_empty_iff (s : String) : s ≠ "" ↔ s.toList ≠ [] := by
  constructor
  · intro h hc
    exact h (by cases s with | mk d => simp [String.toList] at hc; simp [hc])
  · intro h hc
    subst hc
    exact h rfl

theorem string_toList_append (r s : String) : (r ++ s).toList = r.toList ++ s.toList := by
  cases r with
  | mk d1 =>
    cases s with
    | mk d2 => simp [String.toList]

theorem joinRel_ne_empty {rel name : String} (hn : name ≠ "") : joinRel rel name ≠ "" := by
  unfold joinRel
  by_cases hr : rel = ""
  · rw [if_pos hr]; exact hn
  · rw [if_neg hr]
    rw [string_ne_empty_iff]
    rw [string_toList_append, string_toList_append]
    intro hc
    simp at hc

theorem joinRel_head {rel name : String} (_hn : name ≠ "") :
    (joinRel rel name).toList.head? =
      if rel = "" then name.toList.head? else rel.toList.head? := by
  unfold joinRel
  by_cases hr : rel = ""
  · rw [if_pos hr, if_pos hr]
  · rw [if_neg hr, if_neg hr]
    rw [string_toList_append, string_toList_append]
    have hr2 : rel.toList ≠ [] := (string_ne_empty_iff rel).mp hr
    cases hrel : rel.toList with
    | nil => exact absurd hrel hr2
    | cons x xs => simp

theorem specEffF_relpath_inv (f : Nat) :
    ∀ (a : Args) (node : FSNode) (path : String) (level : Int)
      (indent relpath : String) (pInfo : Option (String × Bool)),
      nodeWF node = true → 1 ≤ level → (level = 1 → relpath = "") →
      relpath.toList.head? ≠ some '/' →
      ∀ v ∈ (specEffF f a node path level indent relpath pInfo).visits,
        v.relpath = joinRel v.parentRel v.name ∧ 1 ≤ v.level ∧
        (v.level = 1 → v.parentRel = "") ∧
        v.relpath ≠ "" ∧ v.relpath.toList.head? ≠ some '/' := by
  induction f with
  | zero =>
    intro a node path level indent relpath pInfo _ _ _ _ v hv
    simp [specEffF, noEff] at hv
  | succ f ih =>
    intro a node path level indent relpath pInfo hwf hlv hrel1 hhead v hv
    rw [specEffF_succ_eq] at hv
    by_cases hg : a.maxLevel > 0 ∧ level > a.maxLevel
    · rw [if_pos hg] at hv; simp [noEff] at hv
    · rw [if_neg hg] at hv
      cases hch : node.childrenQ with
      | none => rw [hch] at hv; simp at hv
      | some l =>
        rw [hch] at hv
        simp only [eapp, List.append_nil] at hv
        have hlwf : ∀ e ∈ listChildren a l, nodeWF e = true :=
          fun e he => listWF_mem (nodeWF_children hch hwf) e (mem_listChildren he)
        revert hv
        have hloop : ∀ (es : List FSNode) (indent : String),
            (∀ e ∈ es, nodeWF e = true) →
            ∀ v ∈ (specLoopGo (specEffF f a) a path level indent relpath pInfo es).visits,
              v.relpath = joinRel v.parentRel v.name ∧ 1 ≤ v.level ∧
              (v.level = 1 → v.parentRel = "") ∧
              v.relpath ≠ "" ∧ v.relpath.toList.head? ≠ some '/' := by
          intro es
          induction es with
          | nil => intro indent _ v hv; simp [specLoopGo, noEff] at hv
          | cons e rest ihr =>
            intro indent hes v hv
            have hewf : nodeWF e = true := hes e (by simp)
            have hname := nodeWF_name hewf
            simp only [specLoopGo, eapp, List.append_nil, List.nil_append,
              List.cons_append] at hv
            rcases List.mem_cons.mp hv with h1 | h1
            · subst h1
              refine ⟨rfl, hlv, fun h => hrel1 h, ?_, ?_⟩
              · show joinRel relpath e.name ≠ ""
                exact joinRel_ne_empty hname.1
              · show (joinRel relpath e.name).toList.head? ≠ some '/'
                rw [joinRel_head hname.1]
                by_cases hr : relpath = ""
                · rw [if_pos hr]; exact hname.2
                · rw [if_neg hr]; exact hhead
            · rcases List.mem_append.mp h1 with h2 | h2
              · by_cases hd : e.isDir = true
                · rw [if_pos hd] at h2
                  refine ih a e _ (level + 1) _ (joinRel relpath e.name) _ hewf
                    (by omega) (by omega) ?_ v h2
                  rw [joinRel_head hname.1]
                  by_cases hr : relpath = ""
                  · rw [if_pos hr]; exact hname.2
                  · rw [if_neg hr]; exact hhead
                · rw [if_neg hd] at h2; simp [noEff] at h2
              · exact ihr indent (fun x hx => hes x (by simp [hx])) v h2
        exact fun hv => hloop (listChildren a l) indent hlwf v hv

/-- C6: over any well-formed snapshot, every visit\'s relative path equals
its actual parent\'s relative path joined with "/" and its own name
(`joinRel`); a root-level entry (level 1) has parent path "" and its bare
name, with no leading slash, as its relative path; every visit sits at
level at least 1 and has a non-empty relative path without a leading
slash — and in export mode the rows are exactly the one-per-visit images
of the trace, so the root itself (level 0, path "") never contributes a
row. -/
theorem claim_C6 (a : Args) (root : FSNode) (hwf : nodeWF root = true) :
    (∀ v ∈ (mainRun a root).state.visits,
      v.relpath = joinRel v.parentRel v.name ∧ 1 ≤ v.level ∧
      (v.level = 1 → v.parentRel = "" ∧ v.relpath = v.name) ∧
      v.relpath ≠ "" ∧ v.relpath.toList.head? ≠ some '/') ∧
    (a.csvOut ≠ "" →
      (mainRun a root).state.stats.csvRows = (mainRun a root).state.visits.map rowOf) := by
  constructor
  · intro v hv
    unfold mainRun at hv
    simp only [] at hv
    rw [printTree_applyEff] at hv
    simp only [applyEff, initState, List.nil_append] at hv
    have := specEffF_relpath_inv (nodeSize root) (effArgs a) root _ 1 "" "" none
      hwf (by omega) (fun _ => rfl) (by simp) v hv
    refine ⟨this.1, this.2.1, ?_, this.2.2.2⟩
    intro h1
    have hpr := this.2.2.1 h1
    refine ⟨hpr, ?_⟩
    rw [this.1, hpr]
    rfl
  · intro hcsv
    have hcsv2 : ¬(effArgs a).csvOut = "" := by rw [effArgs_csvOut]; exact hcsv
    unfold mainRun
    simp only []
    rw [printTree_applyEff]
    simp [applyEff, initState, hcsv2]

mutual
theorem nodeSize_mapSizes (g : Option Nat → Option Nat) :
    ∀ (n : FSNode), nodeSize (mapSizes g n) = nodeSize n
  | .file n sz p => rfl
  | .dir n p none => rfl
  | .dir n p (some l) => by
    show 1 + listSize (mapSizesList g l) = 1 + listSize l
    rw [listSize_mapSizesList g l]
theorem listSize_mapSizesList (g : Option Nat → Option Nat) :
    ∀ (l : List FSNode), listSize (mapSizesList g l) = listSize l
  | [] => rfl
  | e :: r => by
    show nodeSize (mapSizes g e) + listSize (mapSizesList g r) = nodeSize e + listSize r
    rw [nodeSize_mapSizes g e, listSize_mapSizesList g r]
end

theorem mapSizes_name (g : Option Nat → Option Nat) (e : FSNode) :
    (mapSizes g e).name = e.name := by
  cases e with
  | file n sz p => rfl
  | dir n p c => cases c <;> rfl

theorem mapSizes_isDir (g : Option Nat → Option Nat) (e : FSNode) :
    (mapSizes g e).isDir = e.isDir := by
  cases e with
  | file n sz p => rfl
  | dir n p c => cases c <;> rfl

theorem keepEntry_mapSizes (a : Args) (g : Option Nat → Option Nat) (e : FSNode) :
    keepEntry a (mapSizes g e) = keepEntry a e := by
  unfold keepEntry
  rw [mapSizes_name, mapSizes_isDir]

theorem nameLe_mapSizes (g : Option Nat → Option Nat) (x y : FSNode) :
    nameLe (mapSizes g x) (mapSizes g y) = nameLe x y := by
  unfold nameLe
  rw [mapSizes_name, mapSizes_name]

theorem filter_mapSizesList (a : Args) (g : Option Nat → Option Nat) :
    ∀ (l : List FSNode),
      (mapSizesList g l).filter (keepEntry a) = mapSizesList g (l.filter (keepEntry a)) := by
  intro l
  induction l with
  | nil => rfl
  | cons e r ih =>
    show ((mapSizes g e) :: mapSizesList g r).filter (keepEntry a) = _
    rw [List.filter_cons, List.filter_cons, keepEntry_mapSizes]
    by_cases hk : keepEntry a e = true
    · simp only [hk, if_true, ih]
      rfl
    · simp only [hk]
      simp only [Bool.false_eq_true, if_false, ih]

theorem insertByName_mapSizes (g : Option Nat → Option Nat) (e : FSNode) :
    ∀ (l : List FSNode),
      insertByName (mapSizes g e) (mapSizesList g l) = mapSizesList g (insertByName e l) := by
  intro l
  induction l with
  | nil => rfl
  | cons y ys ih =>
    show insertByName (mapSizes g e) (mapSizes g y :: mapSizesList g ys) = _
    unfold insertByName
    rw [nameLe_mapSizes]
    by_cases hle : nameLe e y = true
    · rw [if_pos hle, if_pos hle]
      rfl
    · rw [if_neg hle, if_neg hle]
      show mapSizes g y :: insertByName (mapSizes g e) (mapSizesList g ys) = _
      rw [ih]
      rfl

theorem sortByName_mapSizes (g : Option Nat → Option Nat) :
    ∀ (l : List FSNode), sortByName (mapSizesList g l) = mapSizesList g (sortByName l) := by
  intro l
  induction l with
  | nil => rfl
  | cons e r ih =>
    show insertByName (mapSizes g e) (sortByName (mapSizesList g r)) = _
    rw [ih, insertByName_mapSizes]
    rfl

theorem listChildren_mapSizes (a : Args) (g : Option Nat → Option Nat) (l : List FSNode) :
    listChildren a (mapSizesList g l) = mapSizesList g (listChildren a l) := by
  unfold listChildren
  rw [filter_mapSizesList, sortByName_mapSizes]

theorem childrenQ_mapSizes (g : Option Nat → Option Nat) (node : FSNode) :
    (mapSizes g node).childrenQ = node.childrenQ.map (mapSizesList g) := by
  cases node with
  | file n sz p => rfl
  | dir n p c => cases c <;> rfl

theorem mkVisit_mapSizes (g : Option Nat → Option Nat) (level : Int)
    (indent relpath : String) (pInfo : Option (String × Bool)) (isLast : Bool) (e : FSNode) :
    mkVisit level indent relpath pInfo isLast (mapSizes g e) =
      mapSizeQ g (mkVisit level indent relpath pInfo isLast e) := by
  cases e with
  | file n sz p => rfl
  | dir n p c => cases c <;> rfl

theorem specEffF_mapSizes (f : Nat) (g : Option Nat → Option Nat) :
    ∀ (a : Args) (node : FSNode) (path : String) (level : Int)
      (indent relpath : String) (pInfo : Option (String × Bool)),
      specEffF f a (mapSizes g node) path level indent relpath pInfo =
        { visits := (specEffF f a node path level indent relpath pInfo).visits.map (mapSizeQ g),
          errs := (specEffF f a node path level indent relpath pInfo).errs,
          depths := (specEffF f a node path level indent relpath pInfo).depths } := by
  induction f with
  | zero => intro a node path level indent relpath pInfo; rfl
  | succ f ih =>
    intro a node path level indent relpath pInfo
    rw [specEffF_succ_eq, specEffF_succ_eq]
    by_cases hg : a.maxLevel > 0 ∧ level > a.maxLevel
    · rw [if_pos hg, if_pos hg]; rfl
    · rw [if_neg hg, if_neg hg]
      rw [childrenQ_mapSizes]
      cases hch : node.childrenQ with
      | none => rfl
      | some l =>
        show eapp (specLoopGo (specEffF f a) a path level indent relpath pInfo
            (listChildren a (mapSizesList g l))) ⟨[], [], [level]⟩ = _
        rw [listChildren_mapSizes]
        have hloop : ∀ (es : List FSNode) (indent relpath : String)
            (pInfo : Option (String × Bool)),
            specLoopGo (specEffF f a) a path level indent relpath pInfo (mapSizesList g es) =
              { visits := (specLoopGo (specEffF f a) a path level indent relpath pInfo es).visits.map (mapSizeQ g),
                errs := (specLoopGo (specEffF f a) a path level indent relpath pInfo es).errs,
                depths := (specLoopGo (specEffF f a) a path level indent relpath pInfo es).depths } := by
          intro es
          induction es with
          | nil => intro indent relpath pInfo; rfl
          | cons e rest ihr =>
            intro indent relpath pInfo
            show specLoopGo (specEffF f a) a path level indent relpath pInfo
              (mapSizes g e :: mapSizesList g rest) = _
            simp only [specLoopGo]
            have hempty : (mapSizesList g rest).isEmpty = rest.isEmpty := by
              cases rest <;> rfl
            rw [hempty, mkVisit_mapSizes, mapSizes_isDir, mapSizes_name, ihr]
            by_cases hd : e.isDir = true
            · rw [if_pos hd, if_pos hd, ih]
              simp [eapp, List.map_append]
            · rw [if_neg hd, if_neg hd]
              simp [eapp, noEff, List.map_append]
        rw [hloop]
        simp [eapp, List.map_append]

theorem stripSize_mapSizeQ (g : Option Nat → Option Nat) (v : Visit) :
    stripSize (mapSizeQ g v) = stripSize v := rfl

/-- C9: the byte size recorded in a visit\'s row is 0 when the entry is a
directory and the size-query result (defaulting to 0 when the query
throws, i.e. `sizeQ = none`) otherwise; and rewriting every file\'s
size-query outcome arbitrarily — in particular turning successes into
failures — changes neither the visit trace (beyond the recorded outcome
itself), nor the folder/file counts, the maximum depth, or the error
channel: a failing size query is swallowed without aborting the run or
the processing of the entry. -/
theorem claim_C9 (a : Args) (root : FSNode) (g : Option Nat → Option Nat) :
    (∀ v ∈ (mainRun a root).state.visits,
      (rowOf v).bytes = (if v.isDir then 0 else v.sizeQ.getD 0) ∧
      (v.isDir = true → (rowOf v).bytes = 0)) ∧
    ((mainRun a (mapSizes g root)).state.visits.map stripSize =
      (mainRun a root).state.visits.map stripSize) ∧
    ((mainRun a (mapSizes g root)).state.stats.folders =
      (mainRun a root).state.stats.folders) ∧
    ((mainRun a (mapSizes g root)).state.stats.files =
      (mainRun a root).state.stats.files) ∧
    ((mainRun a (mapSizes g root)).state.stats.maxDepth =
      (mainRun a root).state.stats.maxDepth) ∧
    ((mainRun a (mapSizes g root)).state.errs = (mainRun a root).state.errs) := by
  have hE : specEff (effArgs a) (mapSizes g root) ((effArgs a).folder) 1 "" "" none =
      { visits := (specEff (effArgs a) root ((effArgs a).folder) 1 "" "" none).visits.map (mapSizeQ g),
        errs := (specEff (effArgs a) root ((effArgs a).folder) 1 "" "" none).errs,
        depths := (specEff (effArgs a) root ((effArgs a).folder) 1 "" "" none).depths } := by
    unfold specEff
    rw [nodeSize_mapSizes]
    exact specEffF_mapSizes (nodeSize root) g (effArgs a) root _ 1 "" "" none
  refine ⟨?_, ?_, ?_, ?_, ?_, ?_⟩
  · intro v _
    exact ⟨rfl, fun h => by simp [rowOf, h]⟩
  all_goals
    unfold mainRun
    simp only []
    rw [printTree_applyEff, printTree_applyEff, hE]
  · simp only [applyEff, initState, List.nil_append, List.map_map]
    congr 1
  · simp only [applyEff, initState, List.countP_map]
    congr 1
  · simp only [applyEff, initState, List.countP_map]
    congr 1
  · simp only [applyEff, initState]
  · simp only [applyEff, initState, List.nil_append]

/-! ## Remaining counterexample and witnesses -/

/-- C4, counterexample: on a root with the single child file `a`, the one
rendered line carries the glyph "`-- ", not the "└── " the claim names,
so the claimed Unicode box-drawing glyphs do not match the code. -/
theorem claim_C4_counterexample :
    (mainRun defaultArgs
        (FSNode.dir "r" "" (some [FSNode.file "a" (some 0) ""]))).state.out.map
      Line.branch = ["`-- "] ∧ ("`-- " : String) ≠ "└── " := by
  constructor <;> decide

/-- C4, witness: the amended theorem applied to the single visit of a
one-file directory. -/
theorem claim_C4_witness :
    mkVisit 1 "" "" none true (FSNode.file "a" (some 0) "") ∈
      (mainRun defaultArgs
        (FSNode.dir "r" "" (some [FSNode.file "a" (some 0) ""]))).state.visits ∧
    ((mkVisit 1 "" "" none true (FSNode.file "a" (some 0) "")).branch =
      if (mkVisit 1 "" "" none true (FSNode.file "a" (some 0) "")).isLast
        then "`-- " else "|-- ") ∧
    pInfoOk (mkVisit 1 "" "" none true (FSNode.file "a" (some 0) "")).parentInfo
      (mkVisit 1 "" "" none true (FSNode.file "a" (some 0) "")).indent :=
  ⟨by decide,
    claim_C4 defaultArgs (FSNode.dir "r" "" (some [FSNode.file "a" (some 0) ""]))
      (mkVisit 1 "" "" none true (FSNode.file "a" (some 0) "")) (by decide)⟩

/-- C2, witness: the theorem applied at `maxLevel = 1` and `maxLevel = -1`
over a two-level tree. -/
theorem claim_C2_witness :
    (0 : Int) < 1 ∧ (-1 : Int) ≤ 0 ∧
    ((mainRun { defaultArgs with maxLevel := 1 }
        (FSNode.dir "r" "" (some [FSNode.file "x" (some 1) "",
          FSNode.dir "d" "" (some [FSNode.file "y" (some 2) ""])]))).state.visits =
      ((mainRun { defaultArgs with maxLevel := 0 }
        (FSNode.dir "r" "" (some [FSNode.file "x" (some 1) "",
          FSNode.dir "d" "" (some [FSNode.file "y" (some 2) ""])]))).state.visits.filter
        (fun v => decide (v.level ≤ 1)))) ∧
    (mainRun { defaultArgs with maxLevel := -1 }
        (FSNode.dir "r" "" (some [FSNode.file "x" (some 1) "",
          FSNode.dir "d" "" (some [FSNode.file "y" (some 2) ""])])) =
      mainRun { defaultArgs with maxLevel := 0 }
        (FSNode.dir "r" "" (some [FSNode.file "x" (some 1) "",
          FSNode.dir "d" "" (some [FSNode.file "y" (some 2) ""])]))) :=
  ⟨by decide, by decide,
    ((claim_C2 defaultArgs (FSNode.dir "r" "" (some [FSNode.file "x" (some 1) "",
      FSNode.dir "d" "" (some [FSNode.file "y" (some 2) ""])])) 1 (-1)).1 (by decide)).1,
    (claim_C2 defaultArgs (FSNode.dir "r" "" (some [FSNode.file "x" (some 1) "",
      FSNode.dir "d" "" (some [FSNode.file "y" (some 2) ""])])) 1 (-1)).2.1 (by decide)⟩

/-- C5, witness: the render-mode and export-mode conjuncts applied over a
one-file directory. -/
theorem claim_C5_witness :
    (defaultArgs.csvOut = "" ∧
      (mainRun defaultArgs
          (FSNode.dir "r" "" (some [FSNode.file "x" (some 1) ""]))).state.out =
        (mainRun defaultArgs
          (FSNode.dir "r" "" (some [FSNode.file "x" (some 1) ""]))).state.visits.map
          (lineOf (effArgs defaultArgs))) ∧
    (({ defaultArgs with csvOut := "o.tsv" } : Args).csvOut ≠ "" ∧
      (mainRun { defaultArgs with csvOut := "o.tsv" }
          (FSNode.dir "r" "" (some [FSNode.file "x" (some 1) ""]))).state.stats.csvRows =
        (mainRun { defaultArgs with csvOut := "o.tsv" }
          (FSNode.dir "r" "" (some [FSNode.file "x" (some 1) ""]))).state.visits.map rowOf) :=
  ⟨⟨rfl, (claim_C5 defaultArgs
      (FSNode.dir "r" "" (some [FSNode.file "x" (some 1) ""]))).2.1 rfl⟩,
   ⟨by decide, (claim_C5 { defaultArgs with csvOut := "o.tsv" }
      (FSNode.dir "r" "" (some [FSNode.file "x" (some 1) ""]))).2.2.1 (by decide)⟩⟩

/-- C6, witness: the theorem applied to the level-2 visit `d/y` of a
well-formed two-level tree. -/
theorem claim_C6_witness :
    nodeWF (FSNode.dir "r" "" (some [FSNode.file "x" (some 1) "",
      FSNode.dir "d" "" (some [FSNode.file "y" (some 2) ""])])) = true ∧
    mkVisit 2 "|   " "d" (some ("", false)) true (FSNode.file "y" (some 2) "") ∈
      (mainRun defaultArgs (FSNode.dir "r" "" (some [FSNode.file "x" (some 1) "",
        FSNode.dir "d" "" (some [FSNode.file "y" (some 2) ""])]))).state.visits ∧
    ((mkVisit 2 "|   " "d" (some ("", false)) true (FSNode.file "y" (some 2) "")).relpath =
      joinRel (mkVisit 2 "|   " "d" (some ("", false)) true
        (FSNode.file "y" (some 2) "")).parentRel
        (mkVisit 2 "|   " "d" (some ("", false)) true (FSNode.file "y" (some 2) "")).name ∧
     (1 : Int) ≤ (mkVisit 2 "|   " "d" (some ("", false)) true
        (FSNode.file "y" (some 2) "")).level ∧
     ((mkVisit 2 "|   " "d" (some ("", false)) true (FSNode.file "y" (some 2) "")).level = 1 →
       (mkVisit 2 "|   " "d" (some ("", false)) true
         (FSNode.file "y" (some 2) "")).parentRel = "" ∧
       (mkVisit 2 "|   " "d" (some ("", false)) true (FSNode.file "y" (some 2) "")).relpath =
         (mkVisit 2 "|   " "d" (some ("", false)) true (FSNode.file "y" (some 2) "")).name) ∧
     (mkVisit 2 "|   " "d" (some ("", false)) true (FSNode.file "y" (some 2) "")).relpath ≠ "" ∧
     (mkVisit 2 "|   " "d" (some ("", false)) true
       (FSNode.file "y" (some 2) "")).relpath.toList.head? ≠ some '/') :=
  ⟨by decide, by decide,
    (claim_C6 defaultArgs (FSNode.dir "r" "" (some [FSNode.file "x" (some 1) "",
      FSNode.dir "d" "" (some [FSNode.file "y" (some 2) ""])])) (by decide)).1
      (mkVisit 2 "|   " "d" (some ("", false)) true (FSNode.file "y" (some 2) ""))
      (by decide)⟩

/-- C8, witness: the theorem applied to an unenumerable directory at
level 1 under the default configuration. -/
theorem claim_C8_witness :
    (FSNode.dir "d" "" none).childrenQ = none ∧
    ¬(defaultArgs.maxLevel > 0 ∧ (1 : Int) > defaultArgs.maxLevel) ∧
    printTree defaultArgs (FSNode.dir "d" "" none) "r/d" 1 "" "" none initState =
      { initState with errs := initState.errs ++ [enumFailMsg "r/d"] } :=
  ⟨rfl, by decide,
    claim_C8 defaultArgs (FSNode.dir "d" "" none) "r/d" 1 "" "" none initState rfl
      (by decide)⟩

/-- C9, witness: the byte-size conjunct applied to the visit of a file
whose size query throws, inside an export run. -/
theorem claim_C9_witness :
    mkVisit 1 "" "" none false (FSNode.file "bad" none "") ∈
      (mainRun { defaultArgs with csvOut := "o.tsv" }
        (FSNode.dir "r" "" (some [FSNode.file "bad" none "",
          FSNode.file "ok" (some 5) ""]))).state.visits ∧
    ((rowOf (mkVisit 1 "" "" none false (FSNode.file "bad" none ""))).bytes =
      (if (mkVisit 1 "" "" none false (FSNode.file "bad" none "")).isDir then 0
       else (mkVisit 1 "" "" none false (FSNode.file "bad" none "")).sizeQ.getD 0) ∧
     ((mkVisit 1 "" "" none false (FSNode.file "bad" none "")).isDir = true →
      (rowOf (mkVisit 1 "" "" none false (FSNode.file "bad" none ""))).bytes = 0)) :=
  ⟨by decide,
    (claim_C9 { defaultArgs with csvOut := "o.tsv" }
      (FSNode.dir "r" "" (some [FSNode.file "bad" none "",
        FSNode.file "ok" (some 5) ""])) (fun _ => none)).1
      (mkVisit 1 "" "" none false (FSNode.file "bad" none "")) (by decide)⟩

/-- C10, witness: the three conjuncts applied to an empty root (a, b)
and to an unenumerable directory (c). -/
theorem claim_C10_witness :
    ((FSNode.dir "r" "" (some [])).childrenQ = some [] ∧
     ¬(defaultArgs.maxLevel > 0 ∧ (1 : Int) > defaultArgs.maxLevel) ∧
     (1 : Int) ≤ (printTree defaultArgs (FSNode.dir "r" "" (some []))
       "r" 1 "" "" none initState).stats.maxDepth) ∧
    (([] : List FSNode).filter (keepEntry defaultArgs) = [] ∧
     (mainRun defaultArgs (FSNode.dir "r" "" (some []))).state.stats.maxDepth = 1 ∧
     (mainRun defaultArgs (FSNode.dir "r" "" (some []))).summary =
       some "The tree counts 1 layers, 0 folders, 0 files.") ∧
    ((FSNode.dir "d" "" none).childrenQ = none ∧
     (printTree defaultArgs (FSNode.dir "d" "" none)
       "p" 1 "" "" none initState).stats.maxDepth = initState.stats.maxDepth) :=
  ⟨⟨rfl, by decide,
     (claim_C10 defaultArgs (FSNode.dir "r" "" (some [])) (FSNode.dir "r" "" (some []))
       "r" 1 "" "" none initState [] []).1 rfl (by decide)⟩,
   ⟨rfl,
     ((claim_C10 defaultArgs (FSNode.dir "r" "" (some [])) (FSNode.dir "r" "" (some []))
       "r" 1 "" "" none initState [] []).2.1 rfl rfl).1,
     ((claim_C10 defaultArgs (FSNode.dir "r" "" (some [])) (FSNode.dir "r" "" (some []))
       "r" 1 "" "" none initState [] []).2.1 rfl rfl).2.2.2 rfl⟩,
   ⟨rfl,
     (claim_C10 defaultArgs (FSNode.dir "r" "" (some [])) (FSNode.dir "d" "" none)
       "p" 1 "" "" none initState [] []).2.2 rfl⟩⟩
